import Mathlib

/-!
Verification of the 42Connect backend core (`backend/app/sync.py`,
`backend/app/session.py`, `backend/app/main.py`) against its specification.

The Python code is shallowly embedded: JSON values become an inductive
type, Python exceptions become an `Except` error monad, the relational
store becomes lists of typed records, and wall-clock time becomes an
explicit integer parameter.  Each embedded definition keeps the name of
the Python function it models.
-/

set_option maxHeartbeats 1000000

namespace FortyTwoConnect

/-- A JSON value as produced by `response.json()` / consumed by the
serializers.  A Python `dict` key lookup that misses and an explicit
JSON `null` both surface as Python `None`; both are `JVal.null` here. -/
inductive JVal : Type where
  | null : JVal
  | bool : Bool → JVal
  | int : Int → JVal
  | str : String → JVal
  | list : List JVal → JVal
  | obj : List (String × JVal) → JVal

/-- Python truthiness: `None`, `False`, `0`, `""`, `[]`, `{}` are falsy. -/
def truthy : JVal → Bool
  | .null => false
  | .bool b => b
  | .int n => n != 0
  | .str s => s != ""
  | .list xs => !xs.isEmpty
  | .obj kvs => !kvs.isEmpty

/-- Python `x or y`: returns `x` when truthy, else `y`. -/
def pyOr (x y : JVal) : JVal := if truthy x then x else y

/-- Python `v is None`. -/
def JVal.isNull : JVal → Bool
  | .null => true
  | _ => false

/-- Exception classes raised by the embedded code.  `httpException c`
models `fastapi.HTTPException(status_code = c)`. -/
inductive PyErr : Type where
  | valueError : PyErr
  | typeError : PyErr
  | keyError : PyErr
  | attributeError : PyErr
  | badSignature : PyErr
  | badTimeSignature : PyErr
  | httpException : Nat → PyErr
  deriving DecidableEq, Repr

/-- The whitespace class of `str.strip` and of the regex `\s`
(ASCII part; exotic unicode whitespace is not modelled). -/
def isPySpace (c : Char) : Bool :=
  c == ' ' || c == '\t' || c == '\n' || c == '\r' || c == '\x0b' || c == '\x0c'

/-- Numeric value of a digit list, as `int` on a digit string. -/
def digitsToNat (l : List Char) : Nat :=
  l.foldl (fun a c => 10 * a + (c.toNat - 48)) 0

def allDigits (l : List Char) : Bool := l.all Char.isDigit

/-- Python `int(s)` on a string: strips surrounding whitespace, accepts an
optional sign followed by digits, raises `ValueError` otherwise
(digit-group underscores are not modelled). -/
def pyIntOfStr (s : String) : Except PyErr Int :=
  let l := ((s.data.dropWhile isPySpace).reverse.dropWhile isPySpace).reverse
  match l with
  | '+' :: rest =>
      if rest ≠ [] ∧ allDigits rest then .ok (digitsToNat rest : Nat) else .error .valueError
  | '-' :: rest =>
      if rest ≠ [] ∧ allDigits rest then .ok (-(digitsToNat rest : Nat) : Int) else .error .valueError
  | rest =>
      if rest ≠ [] ∧ allDigits rest then .ok (digitsToNat rest : Nat) else .error .valueError

/-- Python `int(v)`: identity on ints, `True`/`False` become `1`/`0`,
strings are parsed, everything else raises. -/
def pyInt : JVal → Except PyErr Int
  | .int n => .ok n
  | .bool b => .ok (if b then 1 else 0)
  | .str s => pyIntOfStr s
  | .null => .error .typeError
  | .list _ => .error .typeError
  | .obj _ => .error .typeError

/-- The recurring idiom `int(x) if x is not None else None`. -/
def optPyInt (v : JVal) : Except PyErr (Option Int) :=
  match v with
  | .null => .ok none
  | w => (pyInt w).map some

/-- Python `str(v)`.  For containers the exact repr text is abstracted;
no theorem depends on it. -/
def pyStr : JVal → String
  | .null => "None"
  | .bool b => if b then "True" else "False"
  | .int n => toString n
  | .str s => s
  | .list _ => "[...]"
  | .obj _ => "{...}"

/-- First binding of a key in a JSON object (object keys are unique). -/
def objGet (kvs : List (String × JVal)) (k : String) : Option JVal :=
  match kvs.find? (fun kv => kv.1 == k) with
  | some kv => some kv.2
  | none => none

/-- Python `d.get(k)`: `None` when the key is missing. -/
def objGetD (kvs : List (String × JVal)) (k : String) : JVal :=
  (objGet kvs k).getD .null

/-- Python `v[k]` subscript: `KeyError` when a dict misses the key,
`TypeError` when the value is not a dict. -/
def pySubscript (v : JVal) (k : String) : Except PyErr JVal :=
  match v with
  | .obj kvs =>
      match objGet kvs k with
      | some w => .ok w
      | none => .error .keyError
  | _ => .error .typeError

/-- Substring test on char lists, as Python `sub in s`. -/
def listContainsSub (pat : List Char) (l : List Char) : Bool :=
  match l with
  | [] => pat.isEmpty
  | _ :: rest => pat.isPrefixOf l || listContainsSub pat rest

/-- Python `sub in s` on strings. -/
def strContains (s sub : String) : Bool := listContainsSub sub.data s.data

/-- Python `str.lower()`, mapped characterwise (structural, so concrete
strings evaluate). -/
def strLower (s : String) : String := String.mk (s.data.map Char.toLower)

/-- `str.rstrip()` on a char list. -/
def rstripWS (l : List Char) : List Char :=
  (l.reverse.dropWhile isPySpace).reverse

/-- Length of the maximal digit run at the end of a char list. -/
def trailingDigitCount (l : List Char) : Nat :=
  (l.reverse.takeWhile Char.isDigit).length

/-! ## sync.py : upstream payload shapes

Upstream records are JSON dicts; the fields the code reads are typed
here.  Fields the code only passes through are typed at the column type
of `models.py`; the id fields, which go through `int(...)`, stay `JVal`
so that coercion failures are modelled. -/

/-- The embedded `project` dict of a `projects_users` record. -/
structure ProjInfo : Type where
  id : JVal
  name : Option String
  slug : Option String

def ProjInfo.empty : ProjInfo := ⟨.null, none, none⟩

/-- One record of the `projects_users` collection. -/
structure ProjItem : Type where
  id : JVal
  project : Option ProjInfo
  status : Option String
  validated : Option Bool
  final_mark : Option Int
  marked_at : Option String

/-- The embedded `cursus` dict of a `cursus_users` record. -/
structure CursInfo : Type where
  id : JVal
  name : Option String

def CursInfo.empty : CursInfo := ⟨.null, none⟩

/-- One record of the `cursus_users` collection. -/
structure CursItem : Type where
  cursus_id : JVal
  cursus : Option CursInfo
  grade : Option String
  begin_at : Option String
  end_at : Option String

/-- A stored `projects` row (`models.Project`), minus the surrogate
primary key.  `synced_at` is an abstract clock value. -/
structure Project : Type where
  student_id : Int
  forty_two_project_user_id : Option Int
  forty_two_project_id : Option Int
  slug : Option String
  name : Option String
  progress_percent : Option Int
  status : Option String
  validated : Option Bool
  final_mark : Option Int
  marked_at : Option String
  synced_at : Int
  deriving DecidableEq, Repr

/-- A stored `cursus_enrollments` row (`models.CursusEnrollment`). -/
structure CursusEnrollment : Type where
  student_id : Int
  forty_two_cursus_id : Option Int
  name : Option String
  grade : Option String
  began_at : Option String
  ended_at : Option String
  synced_at : Int
  deriving DecidableEq, Repr

/-! ## sync.py : field mappers -/

/-- Shallow shape check for `datetime.fromisoformat`: four digits, dash,
two digits, dash, two digits.  The embedded datetime value is the
normalised string itself; full calendar parsing is not modelled and no
claim depends on it. -/
def looksIsoDate (s : String) : Bool :=
  match s.data with
  | y1 :: y2 :: y3 :: y4 :: '-' :: m1 :: m2 :: '-' :: d1 :: d2 :: _ =>
      y1.isDigit && y2.isDigit && y3.isDigit && y4.isDigit &&
      m1.isDigit && m2.isDigit && d1.isDigit && d2.isDigit
  | _ => false

/-- `parse_datetime` (sync.py:22): `None` passes through, a string has
`"Z"` replaced by `"+00:00"` and is parsed, returning `None` on failure.
The `isinstance(value, datetime)` branch never fires for JSON input. -/
def parse_datetime (value : Option String) : Option String :=
  match value with
  | none => none
  | some s =>
      let normalised := s.replace "Z" "+00:00"
      if looksIsoDate normalised then some normalised else none

/-- Result object of `_parse_progress_percent` (sync.py:243). -/
structure _ParsedPercent : Type where
  percent : Int
  cleaned_name : Option String
  deriving DecidableEq, Repr

/-- `_parse_progress_percent` (sync.py:251).  The source evaluates
`re.search(r"(\d{1,3})\s*$", name)`.  The leftmost match of that pattern
exists iff the name stripped of trailing whitespace ends in a digit; the
match then starts `min(runLength, 3)` characters before the end of the
stripped name, where `runLength` is the maximal trailing digit run.  The
group is those digits, and `name[: match.start()].rstrip() or None`
produces the cleaned name. -/
def _parse_progress_percent (name : Option String) : Option _ParsedPercent :=
  match name with
  | none => none
  | some s =>
      if s.data.isEmpty then none
      else
        let t := rstripWS s.data
        let run := trailingDigitCount t
        if run == 0 then none
        else
          let k := min run 3
          let digits := t.drop (t.length - k)
          let percent : Int := (digitsToNat digits : Nat)
          let cleaned := rstripWS (s.data.take (t.length - k))
          some { percent := min percent 100
                 cleaned_name := if cleaned.isEmpty then none else some (String.mk cleaned) }

def PISCINE_KEYWORD : String := "piscine"

/-- `_should_store_project` (sync.py:237):
`str(project.get("name") or project.get("slug") or "").lower()` must not
contain `"piscine"`. -/
def _should_store_project (data : ProjItem) : Bool :=
  let project := data.project.getD ProjInfo.empty
  let name :=
    strLower (pyStr (pyOr (project.name.elim .null .str) (pyOr (project.slug.elim .null .str) (.str ""))))
  !(strContains name PISCINE_KEYWORD)

/-- `_project_payload_to_kwargs` (sync.py:101).  The dict literal
evaluates `int(project_user_id)` before `int(project_id)`; either raises
on a present but non-integer value. -/
def _project_payload_to_kwargs (data : ProjItem) (student_id : Int) (now : Int) :
    Except PyErr Project := do
  let project := data.project.getD ProjInfo.empty
  let raw_name := project.name
  let parsed := _parse_progress_percent raw_name
  let puid ← optPyInt data.id
  let pid ← optPyInt project.id
  .ok { student_id := student_id
        forty_two_project_user_id := puid
        forty_two_project_id := pid
        slug := project.slug
        name := match parsed with | some p => p.cleaned_name | none => raw_name
        progress_percent := match parsed with | some p => some p.percent | none => none
        status := data.status
        validated := data.validated
        final_mark := data.final_mark
        marked_at := parse_datetime data.marked_at
        synced_at := now }

/-- `_cursus_payload_to_kwargs` (sync.py:125).  Note the id fallback
order: `cursus.get("id") or data.get("cursus_id")` — the reverse of the
loop key in `_sync_cursus`. -/
def _cursus_payload_to_kwargs (data : CursItem) (student_id : Int) (now : Int) :
    Except PyErr CursusEnrollment := do
  let cursus := data.cursus.getD CursInfo.empty
  let cursus_id := pyOr cursus.id data.cursus_id
  let cid ← optPyInt cursus_id
  .ok { student_id := student_id
        forty_two_cursus_id := cid
        name := cursus.name
        grade := data.grade
        began_at := parse_datetime data.begin_at
        ended_at := parse_datetime data.end_at
        synced_at := now }

/-! ## sync.py : the reconciliation engine

`_sync_projects` (sync.py:142) and `_sync_cursus` (sync.py:177) share
one shape: build a dict from the stored rows keyed by the remote id
(later rows win on a duplicate key), walk the payload tracking seen
keys, update the mapped row in place or add a new row, then delete the
stored keys never seen.  The shape is factored into `reconcile` over a
`SyncKind`; the two instantiations below supply exactly the pieces of
the two source functions. -/

/-- The per-collection pieces of a reconciliation pass. -/
structure SyncKind (Item Rec : Type) : Type where
  /-- Filter applied before anything else (projects: `_should_store_project`;
  cursus: always true). -/
  storeable : Item → Bool
  /-- Loop identity key: `int(raw) if raw is not None else None`,
  skipping the record on `none`. -/
  itemKey : Item → Except PyErr (Option Int)
  /-- The `payload_to_kwargs` mapper producing a full replacement row. -/
  toKwargs : Item → Except PyErr Rec
  /-- The stored key column the dict is built from. -/
  recKey : Rec → Option Int

/-- Index of the last row holding key `k`: the surviving binding in the
Python dict comprehension over the stored rows. -/
def lastIdx? (keys : List (Option Int)) (k : Int) : Option Nat :=
  match keys with
  | [] => none
  | key :: rest =>
      match lastIdx? rest k with
      | some j => some (j + 1)
      | none => if key == some k then some 0 else none

/-- The `for item in payloads:` loop.  `map` is the dict built from the
stored rows before the loop; it is never extended inside the loop, so a
repeated key that was not stored misses the dict every time and inserts
one row per occurrence.  The session holds the rows positionally:
`recs.set` is an in-place field overwrite, append is `session.add`. -/
def reconcileLoop {Item Rec : Type} (K : SyncKind Item Rec) (map : Int → Option Nat) :
    List Item → List Rec → List Int → Except PyErr (List Rec × List Int)
  | [], recs, seen => .ok (recs, seen)
  | item :: rest, recs, seen =>
      if K.storeable item then
        match K.itemKey item with
        | .error e => .error e
        | .ok none => reconcileLoop K map rest recs seen
        | .ok (some k) =>
            match K.toKwargs item with
            | .error e => .error e
            | .ok kw =>
                match map k with
                | some idx => reconcileLoop K map rest (recs.set idx kw) (seen ++ [k])
                | none => reconcileLoop K map rest (recs ++ [kw]) (seen ++ [k])
      else reconcileLoop K map rest recs seen

/-- One reconciliation pass over the stored rows of one owner.  The
trailing filter is the `delete ... where key in to_delete` statement: it
runs after the loop against the flushed session state, and a row whose
key column is NULL never matches a SQL `IN` list, so only integer keys
delete. -/
def reconcile {Item Rec : Type} (K : SyncKind Item Rec)
    (existing : List Rec) (payloads : List Item) : Except PyErr (List Rec) := do
  let map := fun k => lastIdx? (existing.map K.recKey) k
  let (recs, seen) ← reconcileLoop K map payloads existing []
  let to_delete := (existing.filterMap K.recKey).filter (fun k => !(seen.contains k))
  .ok (recs.filter (fun r =>
    match K.recKey r with
    | some k => !(to_delete.contains k)
    | none => true))

/-- Loop key of `_sync_cursus` (sync.py:185):
`item.get("cursus_id") or (item.get("cursus") or {}).get("id")`,
then `int(...)` unless `None`. -/
def curs_loop_key (item : CursItem) : Except PyErr (Option Int) :=
  optPyInt (pyOr item.cursus_id (item.cursus.getD CursInfo.empty).id)

def projKind (student_id now : Int) : SyncKind ProjItem Project :=
  { storeable := _should_store_project
    itemKey := fun item => optPyInt item.id
    toKwargs := fun item => _project_payload_to_kwargs item student_id now
    recKey := Project.forty_two_project_user_id }

def cursKind (student_id now : Int) : SyncKind CursItem CursusEnrollment :=
  { storeable := fun _ => true
    itemKey := curs_loop_key
    toKwargs := fun item => _cursus_payload_to_kwargs item student_id now
    recKey := CursusEnrollment.forty_two_cursus_id }

/-- `_sync_projects` (sync.py:142), restricted to the rows of one owner
(every statement in the source carries `student_id == student.id`). -/
def _sync_projects (existing : List Project) (student_id : Int)
    (payloads : List ProjItem) (now : Int) : Except PyErr (List Project) :=
  reconcile (projKind student_id now) existing payloads

/-- `_sync_cursus` (sync.py:177), restricted to the rows of one owner. -/
def _sync_cursus (existing : List CursusEnrollment) (student_id : Int)
    (payloads : List CursItem) (now : Int) : Except PyErr (List CursusEnrollment) :=
  reconcile (cursKind student_id now) existing payloads

/-- The identity keys a payload contributes to `seen_ids`, in order. -/
def seenKeysOf {Item Rec : Type} (K : SyncKind Item Rec) (payloads : List Item) : List Int :=
  payloads.filterMap (fun item =>
    if K.storeable item then
      match K.itemKey item with
      | .ok (some k) => some k
      | _ => none
    else none)

def projSeenKeys (payloads : List ProjItem) : List Int := seenKeysOf (projKind 0 0) payloads

def cursSeenKeys (payloads : List CursItem) : List Int := seenKeysOf (cursKind 0 0) payloads

/-- An item is key-consistent when the row its mapper writes carries the
same key the loop tracked in `seen_ids`.  Projects always are (both
sides coerce `data.get("id")`); a cursus item is consistent unless its
two id sources disagree (`_sync_cursus` prefers the top-level
`cursus_id`, `_cursus_payload_to_kwargs` prefers the embedded
`cursus.id`). -/
def consistentB {Item Rec : Type} (K : SyncKind Item Rec) (item : Item) : Bool :=
  match K.itemKey item, K.toKwargs item with
  | .ok (some k), .ok kw => K.recKey kw == some k
  | _, _ => true

/-! ## sync.py : paginated fetch and orchestration -/

/-- One page response of the remote API: HTTP status and decoded body.
The remote collection is modelled as the list of responses for pages
1, 2, 3, ...; pages beyond the list are empty 200 responses. -/
def _fetch_all_loop {α : Type} (aggregated : List α) :
    List (Nat × List α) → Except PyErr (List α)
  | [] => .ok aggregated
  | (status_code, batch) :: rest =>
      if status_code ≠ 200 then .error (.httpException 502)
      else if batch.isEmpty then .ok aggregated
      else if batch.length < 100 then .ok (aggregated ++ batch)
      else _fetch_all_loop (aggregated ++ batch) rest

/-- `_fetch_all` (sync.py:36): sequential page walk from page 1, raising
`HTTPException(502)` on any non-200 page, stopping on an empty or short
page. -/
def _fetch_all {α : Type} (pages : List (Nat × List α)) : Except PyErr (List α) :=
  _fetch_all_loop [] pages

/-- Spec-side predicate: some page that the walk actually requests
returns a non-success status.  A page after a short or empty page is
never requested. -/
def requestedBad {α : Type} : List (Nat × List α) → Bool
  | [] => false
  | (status_code, batch) :: rest =>
      status_code ≠ 200 ||
      (!batch.isEmpty && decide (batch.length ≥ 100) && requestedBad rest)

/-! ## sync.py : owner profile upsert and the full sync -/

structure ImageInfo : Type where
  link : Option String

structure CampusInfo : Type where
  name : JVal

/-- The remote profile dict, fields as read by `_upsert_student` and
`_extract_campus`.  A non-list `campus` value fails the isinstance
check exactly like an absent one and is merged into `none`. -/
structure Profile : Type where
  id : JVal
  login : Option String
  displayname : Option String
  usual_full_name : Option String
  email : Option String
  image : Option ImageInfo
  campus : Option (List CampusInfo)

/-- A stored `students` row. `forty_two_id` keeps the raw profile id
value (the column is numeric; the code inserts the JSON value as is). -/
structure Student : Type where
  id : Int
  forty_two_id : JVal
  login : String
  display_name : String
  email : Option String
  image_url : Option String
  campus : Option String

/-- Python `a or b` on an optional string against a string default. -/
def strOr (a : Option String) (b : String) : String :=
  match a with
  | some s => if s == "" then b else s
  | none => b

/-- `_extract_campus` (sync.py:59). -/
def _extract_campus (profile : Profile) : Option String :=
  match profile.campus with
  | some (primary :: _) =>
      match primary.name with
      | .str s => some s
      | _ => none
  | _ => none

/-- SQL equality of the numeric `forty_two_id` column against a JSON
value; containers never match a numeric column. -/
def jvalPrimEq : JVal → JVal → Bool
  | .null, .null => true
  | .bool a, .bool b => a == b
  | .int a, .int b => a == b
  | .str a, .str b => a == b
  | _, _ => false

/-- `_upsert_student` (sync.py:69): 500 error when the profile has no
id; otherwise update the matching row in place or insert a new one.
The DB-assigned surrogate key is modelled as max existing id plus one.
Returns the row list and the id of the upserted student. -/
def _upsert_student (students : List Student) (profile : Profile) :
    Except PyErr (List Student × Int) :=
  if profile.id.isNull then .error (.httpException 500)
  else
    let login := strOr profile.login ""
    let display_name := strOr profile.displayname (strOr profile.usual_full_name login)
    match students.find? (fun s => jvalPrimEq s.forty_two_id profile.id) with
    | some existing =>
        let updated : Student :=
          { existing with
            login := login
            display_name := display_name
            email := profile.email
            image_url := (profile.image.getD ⟨none⟩).link
            campus := _extract_campus profile }
        .ok (students.map (fun s => if s.id == existing.id then updated else s), existing.id)
    | none =>
        let newId := (students.map Student.id).foldl max 0 + 1
        let fresh : Student :=
          { id := newId
            forty_two_id := profile.id
            login := login
            display_name := display_name
            email := profile.email
            image_url := (profile.image.getD ⟨none⟩).link
            campus := _extract_campus profile }
        .ok (students ++ [fresh], newId)

/-- The relational store.  A returned `.error` means the request-scoped
session is discarded without `session.commit()`, so the store is
unchanged; `.ok` is the committed state. -/
structure Store : Type where
  students : List Student
  projects : List Project
  cursus : List CursusEnrollment

/-- `sync_student_data` (sync.py:209): profile upsert, two paginated
fetches, two reconciliation passes, one commit at the end.  Any raised
exception aborts before the commit. -/
def sync_student_data (store : Store) (profile : Profile)
    (projPages : List (Nat × List ProjItem)) (cursPages : List (Nat × List CursItem))
    (now : Int) : Except PyErr Store := do
  let (students, student_id) ← _upsert_student store.students profile
  if profile.id.isNull then .error (.httpException 500)
  else do
    let projects_payload ← _fetch_all projPages
    let cursus_payload ← _fetch_all cursPages
    let ownProjects := store.projects.filter (fun p => p.student_id == student_id)
    let otherProjects := store.projects.filter (fun p => !(p.student_id == student_id))
    let ownCursus := store.cursus.filter (fun c => c.student_id == student_id)
    let otherCursus := store.cursus.filter (fun c => !(c.student_id == student_id))
    let newProjects ← _sync_projects ownProjects student_id projects_payload now
    let newCursus ← _sync_cursus ownCursus student_id cursus_payload now
    .ok { students := students
          projects := otherProjects ++ newProjects
          cursus := otherCursus ++ newCursus }

/-! ## main.py : project status classification -/

def FINISHED_STATUSES : List String := ["finished", "passed", "validated", "done", "completed"]

def IN_PROGRESS_STATUSES : List String :=
  ["in_progress", "waiting_for_correction", "searching_a_group", "creating_group", "parent"]

/-- `is_finished_project` (main.py:273). -/
def is_finished_project (project : Project) : Bool :=
  if project.validated.getD false then true
  else if (match project.status with
           | some s => s != "" && FINISHED_STATUSES.contains (strLower s)
           | none => false) then true
  else if project.final_mark.isSome &&
          !(IN_PROGRESS_STATUSES.contains (strLower (project.status.getD ""))) then true
  else false

/-- `is_in_progress_project` (main.py:283). -/
def is_in_progress_project (project : Project) : Bool :=
  let status := strLower (project.status.getD "")
  if IN_PROGRESS_STATUSES.contains status then true
  else if !(is_finished_project project) && project.final_mark.isNone then true
  else false

/-! ## session.py : signed session tickets

`itsdangerous.URLSafeTimedSerializer` is modelled symbolically with a
perfect MAC: a well-formed token records the signed payload together
with the secret, the purpose salt and the signing timestamp, and
verification succeeds exactly when secret and salt match and the age is
within `max_age`; every other byte string is `corrupt` and fails
verification.  The signed top-level payload is always a JSON dict (both
producers in the code sign dict literals). -/

/-- The configuration fields the session codec reads. -/
structure Settings : Type where
  session_secret : String
  session_max_age : Int

/-- `session.UserProfile` (session.py:12).  Python does not enforce the
`Optional[str]` annotation of `image_url`; the field keeps the raw JSON
value assigned by `decode_session`. -/
structure UserProfile : Type where
  id : Int
  login : String
  display_name : String
  image_url : JVal

/-- `session.SessionData` (session.py:20), token fields raw as above. -/
structure SessionData : Type where
  user : UserProfile
  access_token : JVal
  refresh_token : JVal
  expires_at : JVal

def SESSION_SALT : String := "ft-session"

def STATE_SALT : String := "ft-state"

def STATE_TTL_SECONDS : Int := 600

/-- A serialized token string. -/
inductive Token : Type where
  | signed (body : List (String × JVal)) (salt : String) (secret : String) (issued : Int)
  | corrupt : Token

/-- `URLSafeTimedSerializer(...).dumps(payload)` at time `now`. -/
def serializer_dumps (body : List (String × JVal)) (secret salt : String) (now : Int) : Token :=
  .signed body salt secret now

/-- `URLSafeTimedSerializer(...).loads(raw, max_age)` at time `now`:
`BadSignature` on corruption or a secret or salt mismatch,
`SignatureExpired` (a `BadTimeSignature`) when older than `max_age`. -/
def serializer_loads (raw : Token) (secret salt : String) (max_age : Int) (now : Int) :
    Except PyErr (List (String × JVal)) :=
  match raw with
  | .corrupt => .error .badSignature
  | .signed body tokenSalt tokenSecret issued =>
      if tokenSecret != secret || tokenSalt != salt then .error .badSignature
      else if now - issued > max_age then .error .badTimeSignature
      else .ok body

/-- `encode_session` (session.py:41). -/
def encode_session (data : SessionData) (settings : Settings) (now : Int) : Token :=
  serializer_dumps
    [ ("user", .obj
        [ ("id", .int data.user.id)
        , ("login", .str data.user.login)
        , ("display_name", .str data.user.display_name)
        , ("image_url", data.user.image_url) ])
    , ("access_token", data.access_token)
    , ("refresh_token", data.refresh_token)
    , ("expires_at", data.expires_at)
    , ("issued_at", .int now) ]
    settings.session_secret SESSION_SALT now

/-- The `UserProfile(...)` construction inside `decode_session`
(session.py:66), evaluated argument by argument; the surrounding
`try` catches `KeyError`, `TypeError` and `ValueError`. -/
def decode_session_user (user_payload : JVal) : Except PyErr UserProfile := do
  let rawId ← pySubscript user_payload "id"
  let idInt ← pyInt rawId
  let rawLogin ← pySubscript user_payload "login"
  let login := pyStr rawLogin
  let rawDisplay := match user_payload with
    | .obj kvs => objGetD kvs "display_name"
    | _ => .null
  let display_name := pyStr (pyOr rawDisplay (.str ""))
  let image_url := match user_payload with
    | .obj kvs => objGetD kvs "image_url"
    | _ => .null
  .ok { id := idInt, login := login, display_name := display_name, image_url := image_url }

/-- `decode_session` (session.py:57).  The result is
`.ok none` for every caught failure (the code returns `None`),
`.ok (some data)` on success; `.error` would be an exception escaping
the function, which the fail-closed theorem rules out. -/
def decode_session (raw : Token) (settings : Settings) (now : Int) :
    Except PyErr (Option SessionData) :=
  match serializer_loads raw settings.session_secret SESSION_SALT settings.session_max_age now with
  | .error .badSignature => .ok none
  | .error .badTimeSignature => .ok none
  | .error e => .error e
  | .ok payload =>
      let user_payload := pyOr (objGetD payload "user") (.obj [])
      match decode_session_user user_payload with
      | .ok user =>
          .ok (some { user := user
                      access_token := objGetD payload "access_token"
                      refresh_token := objGetD payload "refresh_token"
                      expires_at := objGetD payload "expires_at" })
      | .error .keyError => .ok none
      | .error .typeError => .ok none
      | .error .valueError => .ok none
      | .error e => .error e

/-! ## Spec-side definitions used in theorem statements -/

/-- A project row with the synced-at stamp blanked, for content
comparison across cycles. -/
def eraseStampP (r : Project) : Project := { r with synced_at := 0 }

/-- A cursus row with the synced-at stamp blanked. -/
def eraseStampC (r : CursusEnrollment) : CursusEnrollment := { r with synced_at := 0 }

/-- The items that contribute key `k` to `seen_ids`. -/
def itemHasKey {Item Rec : Type} (K : SyncKind Item Rec) (k : Int) (item : Item) : Bool :=
  K.storeable item &&
    (match K.itemKey item with
     | .ok (some k2) => k2 == k
     | _ => false)

/-- The last payload occurrence carrying key `k`. -/
def lastItemWith {Item Rec : Type} (K : SyncKind Item Rec)
    (payloads : List Item) (k : Int) : Option Item :=
  (payloads.filter (itemHasKey K k)).getLast?

/-- The stored rows holding key `k`. -/
def recsWith {Item Rec : Type} (K : SyncKind Item Rec) (recs : List Rec) (k : Int) : List Rec :=
  recs.filter (fun r => K.recKey r == some k)

/-- The rows the loop appends (`session.add`): one mapped row per
storeable payload item whose key misses the prebuilt dict. -/
def appendedOf {Item Rec : Type} (K : SyncKind Item Rec) (map : Int → Option Nat)
    (payloads : List Item) : List Rec :=
  payloads.filterMap (fun item =>
    if K.storeable item then
      match K.itemKey item with
      | .ok (some k) =>
          match map k with
          | none => (K.toKwargs item).toOption
          | some _ => none
      | _ => none
    else none)

/-- Written from the spec words of 4.3: true iff the lowercased project
name-or-slug contains the substring "piscine".  Compared against the
source predicate `_should_store_project`. -/
def isPlaceholderProject (record : ProjItem) : Bool :=
  let project := record.project.getD ProjInfo.empty
  strContains (strLower (strOr project.name (strOr project.slug ""))) PISCINE_KEYWORD

/-! ## Claim C10 : classification exhaustiveness

The two predicates cannot both be false: if the lowered status is in the
in-progress set the project is in progress; otherwise a present final
mark makes it finished through the third branch, and an absent final
mark makes it in progress through the second branch unless it is
already finished. -/

theorem finished_or_in_progress (p : Project) :
    is_finished_project p = true ∨ is_in_progress_project p = true := by
  by_cases hip : IN_PROGRESS_STATUSES.contains (strLower (p.status.getD "")) = true
  · right
    simp only [is_in_progress_project]
    simp
    exact Or.inl (List.mem_of_elem_eq_true hip)
  · by_cases hfin : is_finished_project p = true
    · left
      exact hfin
    · right
      cases hm : p.final_mark with
      | some v =>
          exfalso
          apply hfin
          simp only [is_finished_project, hm, Option.isSome_some, Bool.true_and]
          simp
          exact Or.inr (Or.inr (fun hmem => hip (List.elem_eq_true_of_mem hmem)))
      | none =>
          simp only [is_in_progress_project]
          simp [Bool.eq_false_iff.mpr hfin, hm]

/-- C10, corrected: the claimed record that is neither finished nor in
progress does not exist — for every combination of validated flag,
status string and final mark, at least one of the two predicates holds. -/
theorem claim10_counterexample :
    ¬ ∃ p : Project, is_finished_project p = false ∧ is_in_progress_project p = false := by
  rintro ⟨p, h1, h2⟩
  rcases finished_or_in_progress p with h | h
  · rw [h1] at h; exact Bool.false_ne_true h
  · rw [h2] at h; exact Bool.false_ne_true h

/-- C10, amended: the classification is exhaustive — every project
record is finished or in progress (it is still not mutually exclusive). -/
theorem claim10_classification_exhaustive (p : Project) :
    is_finished_project p = true ∨ is_in_progress_project p = true :=
  finished_or_in_progress p

/-! ## Claim C6 : the trailing progress-percent parser -/

theorem except_bind_ok {α β : Type} (a : α) (f : α → Except PyErr β) :
    (Except.ok a >>= f) = f a := rfl

theorem except_bind_error {α β : Type} (e : PyErr) (f : α → Except PyErr β) :
    ((Except.error e : Except PyErr α) >>= f) = Except.error e := rfl

theorem digit_not_space (c : Char) (h : c.isDigit = true) : isPySpace c = false := by
  unfold isPySpace
  by_contra hcon
  simp only [Bool.not_eq_false, Bool.or_eq_true, beq_iff_eq] at hcon
  rcases hcon with ((((h1 | h1) | h1) | h1) | h1) | h1 <;> subst h1 <;> simp [Char.isDigit] at h

theorem rstripWS_of_last_not_space (l : List Char)
    (h : ∀ c, l.getLast? = some c → isPySpace c = false) : rstripWS l = l := by
  unfold rstripWS
  cases hr : l.reverse with
  | nil =>
      have : l = [] := by
        have := congrArg List.reverse hr
        simpa using this
      simp [this]
  | cons c rest =>
      have hc : l.getLast? = some c := by
        rw [← List.head?_reverse, hr]
        rfl
      rw [List.dropWhile_cons]
      simp only [h c hc]
      simp only [Bool.false_eq_true, if_false]
      rw [← hr, List.reverse_reverse]

theorem trailingDigitCount_eq_zero (l : List Char)
    (h : l.getLast?.elim false Char.isDigit = false) : trailingDigitCount l = 0 := by
  unfold trailingDigitCount
  cases hr : l.reverse with
  | nil => simp
  | cons c rest =>
      have hc : l.getLast? = some c := by
        rw [← List.head?_reverse, hr]
        rfl
      rw [hc] at h
      simp only [Option.elim] at h
      rw [List.takeWhile_cons]
      simp [h]

theorem trailingDigitCount_pos (l : List Char) (c : Char)
    (hc : l.getLast? = some c) (hd : c.isDigit = true) : 0 < trailingDigitCount l := by
  unfold trailingDigitCount
  cases hr : l.reverse with
  | nil =>
      exfalso
      rw [← List.head?_reverse, hr] at hc
      cases hc
  | cons c' rest =>
      have : c' = c := by
        rw [← List.head?_reverse, hr] at hc
        cases hc
        rfl
      subst this
      rw [List.takeWhile_cons]
      simp [hd]

theorem rev_decomposition (l : List Char) (p : Char → Bool) :
    l = (l.reverse.dropWhile p).reverse ++ (l.reverse.takeWhile p).reverse := by
  conv_lhs => rw [← List.reverse_reverse l]
  conv_lhs => rw [← List.takeWhile_append_dropWhile p l.reverse]
  rw [List.reverse_append]

theorem append_drop_suffix (A B : List Char) :
    (A ++ B).drop ((A ++ B).length - B.length) = B := by
  have h : (A ++ B).length - B.length = A.length := by
    rw [List.length_append]
    omega
  rw [h]
  exact List.drop_left A B

theorem append_take_prefix (A B : List Char) :
    (A ++ B).take ((A ++ B).length - B.length) = A := by
  have h : (A ++ B).length - B.length = A.length := by
    rw [List.length_append]
    omega
  rw [h]
  exact List.take_left A B

theorem drop_trailing_run (l : List Char) :
    l.drop (l.length - trailingDigitCount l) = (l.reverse.takeWhile Char.isDigit).reverse := by
  have hc : trailingDigitCount l = ((l.reverse.takeWhile Char.isDigit).reverse).length := by
    simp [trailingDigitCount]
  rw [hc]
  set B := (l.reverse.takeWhile Char.isDigit).reverse with hB
  set A := (l.reverse.dropWhile Char.isDigit).reverse with hA
  have hl : l = A ++ B := by
    rw [hA, hB]
    exact rev_decomposition l Char.isDigit
  rw [hl]
  exact append_drop_suffix A B

theorem take_before_run (l : List Char) :
    l.take (l.length - trailingDigitCount l) = (l.reverse.dropWhile Char.isDigit).reverse := by
  have hc : trailingDigitCount l = ((l.reverse.takeWhile Char.isDigit).reverse).length := by
    simp [trailingDigitCount]
  rw [hc]
  set B := (l.reverse.takeWhile Char.isDigit).reverse with hB
  set A := (l.reverse.dropWhile Char.isDigit).reverse with hA
  have hl : l = A ++ B := by
    rw [hA, hB]
    exact rev_decomposition l Char.isDigit
  rw [hl]
  exact append_take_prefix A B

theorem dropWhile_append_all {α : Type} (p : α → Bool) :
    ∀ (X Y : List α), (∀ c ∈ X, p c = true) →
      (X ++ Y).dropWhile p = Y.dropWhile p := by
  intro X
  induction X with
  | nil =>
      intro Y _
      rfl
  | cons x xs ih =>
      intro Y h
      have hx : p x = true := h x (List.mem_cons_self x xs)
      rw [List.cons_append, List.dropWhile_cons, if_pos hx]
      exact ih Y (fun c hc => h c (List.mem_cons_of_mem x hc))

theorem takeWhile_append_all {α : Type} (p : α → Bool) :
    ∀ (X Y : List α), (∀ c ∈ X, p c = true) →
      (X ++ Y).takeWhile p = X ++ Y.takeWhile p := by
  intro X
  induction X with
  | nil =>
      intro Y _
      rfl
  | cons x xs ih =>
      intro Y h
      have hx : p x = true := h x (List.mem_cons_self x xs)
      rw [List.cons_append, List.takeWhile_cons, if_pos hx,
        ih Y (fun c hc => h c (List.mem_cons_of_mem x hc)), List.cons_append]

/-- Trailing whitespace is invisible to `rstrip`. -/
theorem rstripWS_append_space (l W : List Char) (hW : ∀ c ∈ W, isPySpace c = true) :
    rstripWS (l ++ W) = rstripWS l := by
  unfold rstripWS
  rw [List.reverse_append]
  rw [dropWhile_append_all isPySpace W.reverse l.reverse
    (fun c hc => hW c (List.mem_reverse.mp hc))]

/-- A list ending in a nonempty digit block is already stripped. -/
theorem rstripWS_ends_digit_append (A D : List Char) (hD : D ≠ [])
    (hDd : allDigits D = true) : rstripWS (A ++ D) = A ++ D := by
  apply rstripWS_of_last_not_space
  intro c hc
  rw [List.getLast?_append_of_ne_nil A hD] at hc
  rw [List.getLast?_eq_getLast_of_ne_nil hD] at hc
  injection hc with hce
  subst hce
  apply digit_not_space
  exact List.all_eq_true.mp hDd _ (List.getLast_mem hD)

/-- The maximal trailing digit run of a prefix-plus-digit-block. -/
theorem trailingDigitCount_append_run (A D : List Char)
    (hDd : allDigits D = true) (hA : A.getLast?.elim false Char.isDigit = false) :
    trailingDigitCount (A ++ D) = D.length := by
  unfold trailingDigitCount
  rw [List.reverse_append]
  rw [takeWhile_append_all Char.isDigit D.reverse A.reverse
    (fun c hc => List.all_eq_true.mp hDd c (List.mem_reverse.mp hc))]
  rw [List.length_append, List.length_reverse]
  have hz : (A.reverse.takeWhile Char.isDigit).length = 0 := by
    have h0 := trailingDigitCount_eq_zero A hA
    simpa [trailingDigitCount] using h0
  rw [hz]
  omega

theorem drop_append_add {α : Type} (A B : List α) (i : Nat) :
    (A ++ B).drop (A.length + i) = B.drop i := by
  induction A with
  | nil => simp
  | cons a as ih =>
      rw [List.cons_append]
      rw [show (a :: as).length + i = (as.length + i) + 1 from by
        rw [List.length_cons]; omega]
      rw [List.drop_succ_cons, ih]

theorem take_append_add {α : Type} (A B : List α) (i : Nat) :
    (A ++ B).take (A.length + i) = A ++ B.take i := by
  induction A with
  | nil => simp
  | cons a as ih =>
      rw [List.cons_append]
      rw [show (a :: as).length + i = (as.length + i) + 1 from by
        rw [List.length_cons]; omega]
      rw [List.take_succ_cons, ih, List.cons_append]

theorem take_append_le {α : Type} (B : List α) :
    ∀ (A : List α) (n : Nat), n ≤ A.length → (A ++ B).take n = A.take n := by
  intro A
  induction A with
  | nil =>
      intro n hn
      have h0 : n = 0 := by simpa using hn
      subst h0
      rfl
  | cons a as ih =>
      intro n hn
      cases n with
      | zero => rfl
      | succ m =>
          rw [List.cons_append, List.take_succ_cons, List.take_succ_cons]
          rw [ih m (by rw [List.length_cons] at hn; omega)]

/-- C6, counterexample: on the name `"42"` the digits strip to the empty
prefix and the code stores no cleaned name at all (`None`), not the
string `"no name"` the claim requires. -/
theorem claim6_counterexample :
    _parse_progress_percent (some "42") = some { percent := 42, cleaned_name := none } ∧
    some { percent := 42, cleaned_name := none } ≠
      some ({ percent := 42, cleaned_name := some "no name" } : _ParsedPercent) := by
  constructor
  · rfl
  · intro h
    cases h

/-- C6, amended: split any name into a prefix not ending in a digit, a
nonempty maximal trailing digit run and trailing whitespace.  The parser
takes the LAST at most three digits of the run as the percent, clamped
at 100; the cleaned name is the prefix plus the excess digits of a
longer run, right-stripped, with empty-after-strip becoming `None` (not
the string `"no name"`).  A name that (after trailing whitespace) does
not end in a digit parses to `None`, and the field mapper then keeps the
raw name verbatim with no percent. -/
theorem claim6_parse_progress_contract :
    (∀ (s : String) (A D W : List Char),
       s.data = A ++ D ++ W →
       D ≠ [] →
       allDigits D = true →
       (∀ c ∈ W, isPySpace c = true) →
       A.getLast?.elim false Char.isDigit = false →
       _parse_progress_percent (some s) =
         some { percent := min (digitsToNat (D.drop (D.length - min D.length 3))) 100
                cleaned_name :=
                  if (rstripWS (A ++ D.take (D.length - min D.length 3))).isEmpty
                  then none
                  else some (String.mk (rstripWS (A ++ D.take (D.length - min D.length 3)))) }) ∧
    (∀ s : String,
       (rstripWS s.data).getLast?.elim false Char.isDigit = false →
       _parse_progress_percent (some s) = none) ∧
    (∀ (it : ProjItem) (sid now : Int) (kw : Project),
       _project_payload_to_kwargs it sid now = .ok kw →
       _parse_progress_percent (it.project.getD ProjInfo.empty).name = none →
       kw.name = (it.project.getD ProjInfo.empty).name ∧ kw.progress_percent = none) := by
  refine ⟨?_, ?_, ?_⟩
  · intro s A D W hs hD hDd hW hA
    have hne : s.data ≠ [] := by
      rw [hs]
      intro h0
      obtain ⟨hAD, _⟩ := List.append_eq_nil.mp h0
      obtain ⟨_, hD0⟩ := List.append_eq_nil.mp hAD
      exact hD hD0
    have hemp : s.data.isEmpty = false := by
      cases h0 : s.data with
      | nil => exact absurd h0 hne
      | cons a as => rfl
    have ht : rstripWS s.data = A ++ D := by
      rw [hs, rstripWS_append_space (A ++ D) W hW]
      exact rstripWS_ends_digit_append A D hD hDd
    have hDpos : 0 < D.length := List.length_pos.mpr hD
    have hrunz : (D.length == 0) = false := by
      simp only [beq_eq_false_iff_ne, ne_eq]
      omega
    have hdrop : (A ++ D).drop ((A ++ D).length - min D.length 3) =
        D.drop (D.length - min D.length 3) := by
      rw [List.length_append]
      rw [show A.length + D.length - min D.length 3 =
        A.length + (D.length - min D.length 3) from by
          have := min_le_left D.length 3
          omega]
      exact drop_append_add A D _
    have htake : s.data.take ((A ++ D).length - min D.length 3) =
        A ++ D.take (D.length - min D.length 3) := by
      rw [hs, List.length_append]
      rw [show A.length + D.length - min D.length 3 =
        A.length + (D.length - min D.length 3) from by
          have := min_le_left D.length 3
          omega]
      rw [take_append_le W (A ++ D) _ (by rw [List.length_append]; omega)]
      exact take_append_add A D _
    simp only [_parse_progress_percent, hemp, ht,
      trailingDigitCount_append_run A D hDd hA, hrunz, Bool.false_eq_true, if_false,
      hdrop, htake]
  · intro s hnd
    simp only [_parse_progress_percent]
    cases hemp : s.data.isEmpty with
    | true => simp [hemp]
    | false =>
        have hz : trailingDigitCount (rstripWS s.data) = 0 := trailingDigitCount_eq_zero _ hnd
        simp [hemp, hz]
  · intro it sid now kw hkw hparse
    simp only [_project_payload_to_kwargs, hparse] at hkw
    cases hpu : optPyInt it.id with
    | error e =>
        rw [hpu] at hkw
        rw [except_bind_error] at hkw
        cases hkw
    | ok puid =>
        rw [hpu, except_bind_ok] at hkw
        cases hpi : optPyInt (it.project.getD ProjInfo.empty).id with
        | error e =>
            rw [hpi, except_bind_error] at hkw
            cases hkw
        | ok pid =>
            rw [hpi, except_bind_ok] at hkw
            cases hkw
            exact ⟨rfl, rfl⟩

/-- C6 witness: the two examples of the claim, the long-run name
`"1234"` (percent 234 clamped to 100, cleaned name `"1"`) and a
trailing-whitespace name, all obtained through the contract theorem at
concrete inputs. -/
theorem claim6_witness :
    _parse_progress_percent (some "Rush 01 42") =
      some { percent := 42, cleaned_name := some "Rush 01" } ∧
    _parse_progress_percent (some "1234") =
      some { percent := 100, cleaned_name := some "1" } ∧
    _parse_progress_percent (some "abc 7 ") =
      some { percent := 7, cleaned_name := some "abc" } ∧
    _parse_progress_percent (some "ft_printf") = none := by
  refine ⟨?_, ?_, ?_, ?_⟩
  · exact (claim6_parse_progress_contract.1 "Rush 01 42" "Rush 01 ".data "42".data []
      (by decide) (by decide) (by decide) (by decide) (by decide)).trans (by decide)
  · exact (claim6_parse_progress_contract.1 "1234" [] "1234".data []
      (by decide) (by decide) (by decide) (by decide) (by decide)).trans (by decide)
  · exact (claim6_parse_progress_contract.1 "abc 7 " "abc ".data "7".data [' ']
      (by decide) (by decide) (by decide) (by decide) (by decide)).trans (by decide)
  · exact claim6_parse_progress_contract.2.1 "ft_printf" (by decide)

/-! ## Claim C2 : abort atomicity on upstream failure -/

theorem fetch_loop_bad {α : Type} (pages : List (Nat × List α)) :
    ∀ acc : List α, requestedBad pages = true →
      _fetch_all_loop acc pages = .error (.httpException 502) := by
  induction pages with
  | nil =>
      intro acc h
      simp [requestedBad] at h
  | cons page rest ih =>
      intro acc h
      obtain ⟨st, batch⟩ := page
      simp only [requestedBad, Bool.or_eq_true, Bool.and_eq_true, decide_eq_true_eq,
        Bool.not_eq_true'] at h
      simp only [_fetch_all_loop]
      by_cases hst : st = 200
      · subst hst
        rcases h with h | ⟨⟨hne, hge⟩, hrest⟩
        · exact absurd rfl h
        · rw [if_neg (by omega)]
          rw [if_neg (by simp [hne])]
          rw [if_neg (by omega)]
          exact ih _ hrest
      · rw [if_pos hst]

theorem fetch_loop_ok {α : Type} (pages : List (Nat × List α)) :
    ∀ acc : List α, requestedBad pages = false →
      ∃ l, _fetch_all_loop acc pages = .ok l := by
  induction pages with
  | nil =>
      intro acc _
      exact ⟨acc, rfl⟩
  | cons page rest ih =>
      intro acc h
      obtain ⟨st, batch⟩ := page
      simp only [requestedBad, Bool.or_eq_false_iff, Bool.and_eq_false_iff,
        decide_eq_false_iff_not, not_not] at h
      obtain ⟨hst, hrest⟩ := h
      simp only [_fetch_all_loop]
      rw [if_neg (by omega)]
      by_cases hemp : batch.isEmpty = true
      · rw [if_pos hemp]
        exact ⟨acc, rfl⟩
      · rw [if_neg hemp]
        by_cases hlen : batch.length < 100
        · rw [if_pos hlen]
          exact ⟨acc ++ batch, rfl⟩
        · rw [if_neg hlen]
          rcases hrest with (h1 | h1) | h1
          · exfalso
            apply hemp
            revert h1
            cases batch.isEmpty <;> simp
          · omega
          · exact ih _ h1

theorem upsert_ok_of_id (students : List Student) (profile : Profile)
    (hid : profile.id.isNull = false) :
    ∃ res, _upsert_student students profile = .ok res := by
  simp only [_upsert_student, hid, Bool.false_eq_true, if_false]
  cases students.find? (fun s => jvalPrimEq s.forty_two_id profile.id) with
  | none => exact ⟨_, rfl⟩
  | some existing => exact ⟨_, rfl⟩

/-- C2: when the remote profile has an id and any requested page of the
projects or curriculum fetch answers with a non-200 status, the whole
sync evaluates to the distinct upstream error `HTTPException(502)` —
an uncommitted abort, so the store is untouched — and the failing
fetcher itself returns that error rather than any partial list. -/
theorem claim2_upstream_abort (store : Store) (profile : Profile)
    (projPages : List (Nat × List ProjItem)) (cursPages : List (Nat × List CursItem))
    (now : Int)
    (hid : profile.id.isNull = false)
    (hbad : requestedBad projPages = true ∨ requestedBad cursPages = true) :
    sync_student_data store profile projPages cursPages now = .error (.httpException 502) ∧
    (requestedBad projPages = true →
      _fetch_all projPages = (.error (.httpException 502) : Except PyErr (List ProjItem))) ∧
    (requestedBad cursPages = true →
      _fetch_all cursPages = (.error (.httpException 502) : Except PyErr (List CursItem))) := by
  refine ⟨?_, fun h => fetch_loop_bad _ [] h, fun h => fetch_loop_bad _ [] h⟩
  obtain ⟨res, hres⟩ := upsert_ok_of_id store.students profile hid
  obtain ⟨students, sid⟩ := res
  simp only [sync_student_data, hres, except_bind_ok, hid, Bool.false_eq_true, if_false]
  cases hpp : requestedBad projPages with
  | true =>
      rw [show _fetch_all projPages = (.error (.httpException 502) : Except PyErr (List ProjItem))
        from fetch_loop_bad _ [] hpp]
      rfl
  | false =>
      obtain ⟨lp, hlp⟩ := fetch_loop_ok projPages [] hpp
      rw [show _fetch_all projPages = (.ok lp : Except PyErr (List ProjItem)) from hlp,
        except_bind_ok]
      have hcp : requestedBad cursPages = true := by
        rcases hbad with h | h
        · rw [h] at hpp; cases hpp
        · exact h
      rw [show _fetch_all cursPages = (.error (.httpException 502) : Except PyErr (List CursItem))
        from fetch_loop_bad _ [] hcp]
      rfl

/-- C2 witness: a profile with id 1 against a projects fetch whose first
page answers 500. -/
theorem claim2_witness :
    sync_student_data ⟨[], [], []⟩ ⟨.int 1, none, none, none, none, none, none⟩
      [(500, ([] : List ProjItem))] ([] : List (Nat × List CursItem)) 0 =
      .error (.httpException 502) :=
  (claim2_upstream_abort ⟨[], [], []⟩ ⟨.int 1, none, none, none, none, none, none⟩
    [(500, [])] [] 0 rfl (Or.inl rfl)).1

/-! ## Claims C8 and C9 : the session token codec -/

theorem pyIntOfStr_err (s : String) (e : PyErr) (h : pyIntOfStr s = .error e) :
    e = .valueError := by
  simp only [pyIntOfStr] at h
  split at h <;> split at h <;> cases h <;> rfl

theorem pyInt_err (v : JVal) (e : PyErr) (h : pyInt v = .error e) :
    e = .typeError ∨ e = .valueError := by
  cases v with
  | str s => exact Or.inr (pyIntOfStr_err s e h)
  | int n => cases h
  | bool b =>
      simp only [pyInt] at h
      cases h
  | null =>
      simp only [pyInt] at h
      cases h
      exact Or.inl rfl
  | list xs =>
      simp only [pyInt] at h
      cases h
      exact Or.inl rfl
  | obj kvs =>
      simp only [pyInt] at h
      cases h
      exact Or.inl rfl

theorem pySubscript_err (v : JVal) (k : String) (e : PyErr)
    (h : pySubscript v k = .error e) : e = .keyError ∨ e = .typeError := by
  cases v with
  | obj kvs =>
      simp only [pySubscript] at h
      cases hg : objGet kvs k with
      | some w => rw [hg] at h; cases h
      | none => rw [hg] at h; cases h; exact Or.inl rfl
  | null =>
      simp only [pySubscript] at h
      cases h
      exact Or.inr rfl
  | bool b =>
      simp only [pySubscript] at h
      cases h
      exact Or.inr rfl
  | int n =>
      simp only [pySubscript] at h
      cases h
      exact Or.inr rfl
  | str s =>
      simp only [pySubscript] at h
      cases h
      exact Or.inr rfl
  | list xs =>
      simp only [pySubscript] at h
      cases h
      exact Or.inr rfl

theorem decode_session_user_err (u : JVal) (e : PyErr)
    (h : decode_session_user u = .error e) :
    e = .keyError ∨ e = .typeError ∨ e = .valueError := by
  unfold decode_session_user at h
  cases h1 : pySubscript u "id" with
  | error e1 =>
      rw [h1, except_bind_error] at h
      cases h
      rcases pySubscript_err u "id" e h1 with h2 | h2
      · exact Or.inl h2
      · exact Or.inr (Or.inl h2)
  | ok rawId =>
      rw [h1, except_bind_ok] at h
      cases h2 : pyInt rawId with
      | error e2 =>
          rw [h2, except_bind_error] at h
          cases h
          rcases pyInt_err rawId e h2 with h3 | h3
          · exact Or.inr (Or.inl h3)
          · exact Or.inr (Or.inr h3)
      | ok idInt =>
          rw [h2, except_bind_ok] at h
          cases h3 : pySubscript u "login" with
          | error e3 =>
              rw [h3, except_bind_error] at h
              cases h
              rcases pySubscript_err u "login" e h3 with h4 | h4
              · exact Or.inl h4
              · exact Or.inr (Or.inl h4)
          | ok rawLogin =>
              rw [h3, except_bind_ok] at h
              cases h

theorem serializer_loads_cases (raw : Token) (secret salt : String) (max_age now : Int) :
    serializer_loads raw secret salt max_age now = .error .badSignature ∨
    serializer_loads raw secret salt max_age now = .error .badTimeSignature ∨
    ∃ body, serializer_loads raw secret salt max_age now = .ok body := by
  cases raw with
  | corrupt => exact Or.inl rfl
  | signed body tokenSalt tokenSecret issued =>
      simp only [serializer_loads]
      by_cases h1 : (tokenSecret != secret || tokenSalt != salt) = true
      · rw [if_pos h1]
        exact Or.inl rfl
      · rw [if_neg h1]
        by_cases h2 : now - issued > max_age
        · rw [if_pos h2]
          exact Or.inr (Or.inl rfl)
        · rw [if_neg h2]
          exact Or.inr (Or.inr ⟨body, rfl⟩)

/-- C8: decoding an encoded session under the same secret and the
session salt, within the max-age window, returns exactly the original
session data — id, login, display name, image URL, both tokens and the
expiry all round-trip. -/
theorem claim8_token_round_trip (d : SessionData) (settings : Settings) (tEnc tDec : Int)
    (h1 : tEnc ≤ tDec) (h2 : tDec - tEnc ≤ settings.session_max_age) :
    decode_session (encode_session d settings tEnc) settings tDec = .ok (some d) := by
  obtain ⟨⟨uid, ulogin, udn, uimg⟩, atk, rtk, exp⟩ := d
  simp only [encode_session, serializer_dumps, decode_session, serializer_loads]
  rw [if_neg (by simp)]
  rw [if_neg (by omega)]
  simp only [objGetD, objGet, List.find?, pyOr, truthy]
  simp only [decode_session_user, pySubscript, objGet, List.find?]
  norm_num
  by_cases hdn : udn = ""
  · subst hdn
    simp [pyInt, pyStr, pyOr, truthy, objGetD, objGet, List.find?, except_bind_ok]
  · simp [hdn, pyInt, pyStr, pyOr, truthy, objGetD, objGet, List.find?, except_bind_ok]

/-- C8 witness: a concrete session round-trips through a token issued at
time 0 and decoded at time 10 with a max age of 100. -/
theorem claim8_witness :
    decode_session
      (encode_session
        ⟨⟨7, "mlogin", "M Login", .str "https://img"⟩, .str "at", .str "rt", .int 99⟩
        ⟨"secret", 100⟩ 0)
      ⟨"secret", 100⟩ 10 =
      .ok (some ⟨⟨7, "mlogin", "M Login", .str "https://img"⟩, .str "at", .str "rt", .int 99⟩) :=
  claim8_token_round_trip
    ⟨⟨7, "mlogin", "M Login", .str "https://img"⟩, .str "at", .str "rt", .int 99⟩
    ⟨"secret", 100⟩ 0 10 (by omega) (by norm_num)

/-- C9, counterexample: a correctly signed, fresh token whose user
payload has an integer login (present, but not a string).  The claim
requires the decode to be invalid; the code coerces the login with
`str()` and returns a session whose login is `"42"`. -/
theorem claim9_counterexample :
    serializer_loads
      (.signed [("user", .obj [("id", .int 1), ("login", .int 42)])] SESSION_SALT "s" 0)
      "s" SESSION_SALT 100 0 = .ok [("user", .obj [("id", .int 1), ("login", .int 42)])] ∧
    decode_session
      (.signed [("user", .obj [("id", .int 1), ("login", .int 42)])] SESSION_SALT "s" 0)
      ⟨"s", 100⟩ 0 = .ok (some ⟨⟨1, "42", "", .null⟩, .null, .null, .null⟩) ∧
    decode_session
      (.signed [("user", .obj [("id", .int 1), ("login", .int 42)])] SESSION_SALT "s" 0)
      ⟨"s", 100⟩ 0 ≠ .ok none := by
  refine ⟨by rfl, by rfl, ?_⟩
  intro h
  rw [show decode_session
      (.signed [("user", .obj [("id", .int 1), ("login", .int 42)])] SESSION_SALT "s" 0)
      ⟨"s", 100⟩ 0 = .ok (some ⟨⟨1, "42", "", .null⟩, .null, .null, .null⟩) from rfl] at h
  cases h

/-- C9, amended: decoding fails closed — it never lets an exception
escape, and returns the explicit invalid result on structural
corruption, on a signature (secret or salt) mismatch, on over-age
tokens, and on any verified payload on which the user construction
raises: owner id missing or not coercible to integer, or the login key
absent.  (A present but non-string login is coerced by `str()` and
accepted, which is the one divergence from the claim.) -/
theorem claim9_fail_closed :
    (∀ (t : Token) (st : Settings) (now : Int),
       ∃ r, decode_session t st now = .ok r) ∧
    (∀ (st : Settings) (now : Int), decode_session .corrupt st now = .ok none) ∧
    (∀ (body : List (String × JVal)) (salt secret : String) (issued : Int)
       (st : Settings) (now : Int),
       ((secret != st.session_secret || salt != SESSION_SALT) = true ∨
         now - issued > st.session_max_age) →
       decode_session (.signed body salt secret issued) st now = .ok none) ∧
    (∀ (t : Token) (st : Settings) (now : Int) (payload : List (String × JVal)) (e : PyErr),
       serializer_loads t st.session_secret SESSION_SALT st.session_max_age now = .ok payload →
       decode_session_user (pyOr (objGetD payload "user") (.obj [])) = .error e →
       decode_session t st now = .ok none) := by
  refine ⟨?_, ?_, ?_, ?_⟩
  · intro t st now
    rcases serializer_loads_cases t st.session_secret SESSION_SALT st.session_max_age now with
      h | h | ⟨body, h⟩
    · exact ⟨none, by simp only [decode_session, h]⟩
    · exact ⟨none, by simp only [decode_session, h]⟩
    · cases hu : decode_session_user (pyOr (objGetD body "user") (.obj [])) with
      | ok user =>
          exact ⟨some { user := user
                        access_token := objGetD body "access_token"
                        refresh_token := objGetD body "refresh_token"
                        expires_at := objGetD body "expires_at" },
                 by simp only [decode_session, h, hu]⟩
      | error e =>
          refine ⟨none, ?_⟩
          simp only [decode_session, h, hu]
          rcases decode_session_user_err _ e hu with h2 | h2 | h2 <;> subst h2 <;> rfl
  · intro st now
    rfl
  · intro body salt secret issued st now hcond
    rcases hcond with hcond | hcond
    · simp only [decode_session, serializer_loads, if_pos hcond]
    · simp only [decode_session, serializer_loads]
      by_cases h1 : (secret != st.session_secret || salt != SESSION_SALT) = true
      · rw [if_pos h1]
      · rw [if_neg h1, if_pos hcond]
  · intro t st now payload e hload huser
    simp only [decode_session, hload, huser]
    rcases decode_session_user_err _ e huser with h2 | h2 | h2 <;> subst h2 <;> rfl

/-- C9 witness: the fail-closed theorem applied to a corrupt token, to a
wrong-salt token, and to a verified token whose user payload misses the
id and another that misses the login key. -/
theorem claim9_witness :
    decode_session .corrupt ⟨"s", 100⟩ 0 = .ok none ∧
    decode_session (.signed [] STATE_SALT "s" 0) ⟨"s", 100⟩ 0 = .ok none ∧
    decode_session (.signed [("user", .obj [("login", .str "l")])] SESSION_SALT "s" 0)
      ⟨"s", 100⟩ 0 = .ok none ∧
    decode_session (.signed [("user", .obj [("id", .int 3)])] SESSION_SALT "s" 0)
      ⟨"s", 100⟩ 0 = .ok none := by
  refine ⟨claim9_fail_closed.2.1 ⟨"s", 100⟩ 0, ?_, ?_, ?_⟩
  · exact claim9_fail_closed.2.2.1 [] STATE_SALT "s" 0 ⟨"s", 100⟩ 0 (Or.inl (by decide))
  · exact claim9_fail_closed.2.2.2
      (.signed [("user", .obj [("login", .str "l")])] SESSION_SALT "s" 0)
      ⟨"s", 100⟩ 0 [("user", .obj [("login", .str "l")])] .keyError (by rfl) (by rfl)
  · exact claim9_fail_closed.2.2.2
      (.signed [("user", .obj [("id", .int 3)])] SESSION_SALT "s" 0)
      ⟨"s", 100⟩ 0 [("user", .obj [("id", .int 3)])] .keyError (by rfl) (by rfl)

/-! ## List helpers for the reconciliation proofs -/

theorem getLast?_cons_eq {α : Type} (a : α) (l : List α) :
    (a :: l).getLast? =
      match l.getLast? with
      | some b => some b
      | none => some a := by
  cases l with
  | nil => rfl
  | cons b m =>
      rw [List.getLast?_cons_cons]
      cases hg : (b :: m).getLast? with
      | some x => rfl
      | none =>
          exfalso
          rw [List.getLast?_eq_none_iff] at hg
          cases hg

theorem drop_cons_of_get? {α : Type} (l : List α) :
    ∀ (n : Nat) (a : α), l.get? n = some a → l.drop n = a :: l.drop (n + 1) := by
  induction l with
  | nil =>
      intro n a h
      cases n <;> cases h
  | cons x xs ih =>
      intro n a h
      cases n with
      | zero =>
          cases h
          rfl
      | succ m =>
          simp only [List.get?_cons_succ] at h
          simp only [List.drop_succ_cons]
          exact ih m a h

theorem filter_singleton_unique_pos {α : Type} (p : α → Bool) :
    ∀ (l : List α) (a : α), l.filter p = [a] →
      ∃ i, l.get? i = some a ∧ p a = true ∧
        ∀ j r, l.get? j = some r → p r = true → j = i := by
  intro l
  induction l with
  | nil =>
      intro a h
      cases h
  | cons x xs ih =>
      intro a h
      cases hp : p x with
      | true =>
          rw [List.filter_cons_of_pos hp] at h
          have hx : x = a := by
            have := List.head_eq_of_cons_eq h
            exact this
          have htail : xs.filter p = [] := List.tail_eq_of_cons_eq h
          subst hx
          refine ⟨0, rfl, hp, ?_⟩
          intro j r hj hr
          cases j with
          | zero => rfl
          | succ m =>
              exfalso
              simp only [List.get?_cons_succ] at hj
              have hmem : r ∈ xs := List.get?_mem hj
              have := List.mem_filter.mpr ⟨hmem, hr⟩
              rw [htail] at this
              cases this
      | false =>
          rw [List.filter_cons_of_neg (by simp [hp])] at h
          obtain ⟨i, hget, hpa, huniq⟩ := ih a h
          refine ⟨i + 1, by simpa using hget, hpa, ?_⟩
          intro j r hj hr
          cases j with
          | zero =>
              cases hj
              rw [hp] at hr
              cases hr
          | succ m =>
              simp only [List.get?_cons_succ] at hj
              have := huniq m r hj hr
              omega

theorem filter_eq_singleton_of_unique_pos {α : Type} (p : α → Bool) :
    ∀ (l : List α) (i : Nat) (kw : α),
      l.get? i = some kw → p kw = true →
      (∀ j r, l.get? j = some r → p r = true → j = i) →
      l.filter p = [kw] := by
  intro l
  induction l with
  | nil =>
      intro i kw hget _ _
      cases i <;> cases hget
  | cons x xs ih =>
      intro i kw hget hp huniq
      cases hpx : p x with
      | true =>
          have h0 : (0 : Nat) = i := huniq 0 x rfl hpx
          subst h0
          cases hget
          rw [List.filter_cons_of_pos hpx]
          have : xs.filter p = [] := by
            rw [List.filter_eq_nil]
            intro r hr
            intro hpr
            obtain ⟨m, hm⟩ := List.get?_of_mem hr
            have := huniq (m + 1) r (by simpa using hm) hpr
            omega
          rw [this]
      | false =>
          have hne : i ≠ 0 := by
            intro h0
            subst h0
            cases hget
            rw [hpx] at hp
            cases hp
          obtain ⟨m, hm⟩ : ∃ m, i = m + 1 := ⟨i - 1, by omega⟩
          subst hm
          rw [List.filter_cons_of_neg (by simp [hpx])]
          apply ih m kw (by simpa using hget) hp
          intro j r hj hr
          have := huniq (j + 1) r (by simpa using hj) hr
          omega

theorem filter_getLast?_of_last_pos {α : Type} (p : α → Bool) :
    ∀ (l : List α) (i : Nat) (r : α),
      l.get? i = some r → p r = true →
      (∀ j s, i < j → l.get? j = some s → p s = false) →
      (l.filter p).getLast? = some r := by
  intro l
  induction l with
  | nil =>
      intro i r hget _ _
      cases i <;> cases hget
  | cons x xs ih =>
      intro i r hget hp hafter
      cases i with
      | zero =>
          cases hget
          rw [List.filter_cons_of_pos hp]
          have hnil : xs.filter p = [] := by
            rw [List.filter_eq_nil]
            intro s hs hps
            obtain ⟨m, hm⟩ := List.get?_of_mem hs
            have := hafter (m + 1) s (by omega) (by simpa using hm)
            rw [hps] at this
            cases this
          rw [hnil]
          rfl
      | succ m =>
          simp only [List.get?_cons_succ] at hget
          have htail : (xs.filter p).getLast? = some r := by
            apply ih m r hget hp
            intro j s hj hs
            exact hafter (j + 1) s (by omega) (by simpa using hs)
          cases hpx : p x with
          | false =>
              rw [List.filter_cons_of_neg (by simp [hpx])]
              exact htail
          | true =>
              rw [List.filter_cons_of_pos hpx, getLast?_cons_eq, htail]

/-! ## The dict built over the stored rows -/

theorem lastIdx?_spec_none (k : Int) :
    ∀ keys : List (Option Int), lastIdx? keys k = none →
      ∀ j, keys.get? j ≠ some (some k) := by
  intro keys
  induction keys with
  | nil =>
      intro _ j
      cases j <;> simp
  | cons key rest ih =>
      intro h j
      simp only [lastIdx?] at h
      cases hr : lastIdx? rest k with
      | some j2 =>
          rw [hr] at h
          cases h
      | none =>
          rw [hr] at h
          by_cases hk : (key == some k) = true
          · rw [if_pos hk] at h
            cases h
          · cases j with
            | zero =>
                intro hc
                cases hc
                exact hk (by simp)
            | succ m =>
                simp only [List.get?_cons_succ]
                exact ih hr m

theorem lastIdx?_spec_some (k : Int) :
    ∀ (keys : List (Option Int)) (i : Nat), lastIdx? keys k = some i →
      keys.get? i = some (some k) ∧ ∀ j, i < j → keys.get? j ≠ some (some k) := by
  intro keys
  induction keys with
  | nil =>
      intro i h
      cases h
  | cons key rest ih =>
      intro i h
      simp only [lastIdx?] at h
      cases hr : lastIdx? rest k with
      | some j =>
          rw [hr] at h
          cases h
          obtain ⟨h1, h2⟩ := ih j hr
          refine ⟨by simpa using h1, ?_⟩
          intro j2 hj2
          cases j2 with
          | zero => omega
          | succ m =>
              simp only [List.get?_cons_succ]
              exact h2 m (by omega)
      | none =>
          rw [hr] at h
          by_cases hk : (key == some k) = true
          · rw [if_pos hk] at h
            cases h
            have hkey : key = some k := beq_iff_eq.mp hk
            refine ⟨by simp [hkey], ?_⟩
            intro j2 hj2
            cases j2 with
            | zero => omega
            | succ m =>
                simp only [List.get?_cons_succ]
                exact lastIdx?_spec_none k rest hr m
          · rw [if_neg hk] at h
            cases h

/-- A key held by some row is in the dict. -/
theorem lastIdx?_isSome_of_pos (k : Int) (keys : List (Option Int)) (j : Nat)
    (h : keys.get? j = some (some k)) : ∃ i, lastIdx? keys k = some i := by
  cases hl : lastIdx? keys k with
  | some i => exact ⟨i, rfl⟩
  | none => exact absurd h (lastIdx?_spec_none k keys hl j)

theorem consistentB_spec {Item Rec : Type} (K : SyncKind Item Rec) (item : Item)
    (h : consistentB K item = true) (k : Int) (kw : Rec)
    (hk : K.itemKey item = .ok (some k)) (hkw : K.toKwargs item = .ok kw) :
    K.recKey kw = some k := by
  simp only [consistentB, hk, hkw] at h
  exact beq_iff_eq.mp h

/-! ## Loop invariants of the reconciliation engine -/

theorem loop_seen {Item Rec : Type} (K : SyncKind Item Rec) (map : Int → Option Nat) :
    ∀ (P : List Item) (recs : List Rec) (seen : List Int) (out : List Rec × List Int),
      reconcileLoop K map P recs seen = .ok out →
      out.2 = seen ++ seenKeysOf K P := by
  intro P
  induction P with
  | nil =>
      intro recs seen out h
      cases h
      simp [seenKeysOf]
  | cons item rest ih =>
      intro recs seen out h
      simp only [reconcileLoop] at h
      by_cases hs : K.storeable item = true
      · rw [if_pos hs] at h
        cases hk : K.itemKey item with
        | error e =>
            simp only [hk] at h
            cases h
        | ok ko =>
            simp only [hk] at h
            cases ko with
            | none =>
                rw [ih recs seen out h]
                simp [seenKeysOf, hs, hk]
            | some k =>
                cases hkw : K.toKwargs item with
                | error e =>
                    simp only [hkw] at h
                    cases h
                | ok kw =>
                    simp only [hkw] at h
                    cases hm : map k with
                    | some idx =>
                        simp only [hm] at h
                        rw [ih _ _ _ h]
                        simp [seenKeysOf, hs, hk]
                    | none =>
                        simp only [hm] at h
                        rw [ih _ _ _ h]
                        simp [seenKeysOf, hs, hk]
      · rw [if_neg hs] at h
        rw [ih recs seen out h]
        simp [seenKeysOf, hs]

theorem loop_ok_items {Item Rec : Type} (K : SyncKind Item Rec) (map : Int → Option Nat) :
    ∀ (P : List Item) (recs : List Rec) (seen : List Int) (out : List Rec × List Int),
      reconcileLoop K map P recs seen = .ok out →
      ∀ item ∈ P, K.storeable item = true →
        (∀ e, K.itemKey item ≠ .error e) ∧
        (∀ k, K.itemKey item = .ok (some k) → ∀ e, K.toKwargs item ≠ .error e) := by
  intro P
  induction P with
  | nil =>
      intro recs seen out _ item hmem
      cases hmem
  | cons it rest ih =>
      intro recs seen out h item hmem hsit
      simp only [reconcileLoop] at h
      by_cases hs : K.storeable it = true
      · rw [if_pos hs] at h
        cases hk : K.itemKey it with
        | error e =>
            simp only [hk] at h
            cases h
        | ok ko =>
            simp only [hk] at h
            rcases List.mem_cons.mp hmem with hit | hit
            · subst hit
              constructor
              · intro e he
                rw [he] at hk
                cases hk
              · intro k hkk e he
                rw [hk] at hkk
                cases hkk
                simp only [he] at h
                cases h
            · cases ko with
              | none => exact ih _ _ _ h item hit hsit
              | some k =>
                  cases hkw : K.toKwargs it with
                  | error e =>
                      simp only [hkw] at h
                      cases h
                  | ok kw =>
                      simp only [hkw] at h
                      cases hm : map k with
                      | some idx =>
                          simp only [hm] at h
                          exact ih _ _ _ h item hit hsit
                      | none =>
                          simp only [hm] at h
                          exact ih _ _ _ h item hit hsit
      · rw [if_neg hs] at h
        rcases List.mem_cons.mp hmem with hit | hit
        · subst hit
          exact absurd hsit hs
        · exact ih _ _ _ h item hit hsit

theorem loop_ok_of_items {Item Rec : Type} (K : SyncKind Item Rec) (map : Int → Option Nat) :
    ∀ (P : List Item) (recs : List Rec) (seen : List Int),
      (∀ item ∈ P, K.storeable item = true →
        (∀ e, K.itemKey item ≠ .error e) ∧
        (∀ k, K.itemKey item = .ok (some k) → ∀ e, K.toKwargs item ≠ .error e)) →
      ∃ out, reconcileLoop K map P recs seen = .ok out := by
  intro P
  induction P with
  | nil =>
      intro recs seen _
      exact ⟨(recs, seen), rfl⟩
  | cons it rest ih =>
      intro recs seen hgood
      simp only [reconcileLoop]
      by_cases hs : K.storeable it = true
      · rw [if_pos hs]
        obtain ⟨hkey, hkw⟩ := hgood it (List.mem_cons_self it rest) hs
        cases hk : K.itemKey it with
        | error e => exact absurd hk (hkey e)
        | ok ko =>
            cases ko with
            | none => exact ih recs seen (fun i hi => hgood i (List.mem_cons_of_mem it hi))
            | some k =>
                cases hw : K.toKwargs it with
                | error e => exact absurd hw (hkw k hk e)
                | ok kw =>
                    cases hm : map k with
                    | some idx =>
                        simp only [hm]
                        exact ih _ _ (fun i hi => hgood i (List.mem_cons_of_mem it hi))
                    | none =>
                        simp only [hm]
                        exact ih _ _ (fun i hi => hgood i (List.mem_cons_of_mem it hi))
      · rw [if_neg hs]
        exact ih recs seen (fun i hi => hgood i (List.mem_cons_of_mem it hi))

/-- Positional skeleton of the loop: the prefix of the session keeps its
positions (each either untouched or overwritten through the dict at its
own key), and everything past the original length is exactly the
appended rows, in payload order. -/
theorem loop_shape {Item Rec : Type} (K : SyncKind Item Rec) (map : Int → Option Nat) :
    ∀ (P : List Item) (recs : List Rec) (seen : List Int) (out : List Rec × List Int),
      (∀ item ∈ P, consistentB K item = true) →
      (∀ k i, map k = some i → ∃ r, recs.get? i = some r ∧ K.recKey r = some k) →
      reconcileLoop K map P recs seen = .ok out →
      recs.length ≤ out.1.length ∧
      (∀ i, i < recs.length →
        (out.1.get? i = recs.get? i ∨
         ∃ k kw, map k = some i ∧ out.1.get? i = some kw ∧ K.recKey kw = some k ∧ k ∈ out.2)) ∧
      out.1.drop recs.length = appendedOf K map P := by
  intro P
  induction P with
  | nil =>
      intro recs seen out _ _ h
      cases h
      exact ⟨Nat.le_refl _, fun i _ => Or.inl rfl, by simp [appendedOf, List.drop_length]⟩
  | cons item rest ih =>
      intro recs seen out hcons hmap h
      simp only [reconcileLoop] at h
      by_cases hs : K.storeable item = true
      · rw [if_pos hs] at h
        cases hk : K.itemKey item with
        | error e =>
            simp only [hk] at h
            cases h
        | ok ko =>
            simp only [hk] at h
            cases ko with
            | none =>
                obtain ⟨h1, h2, h3⟩ :=
                  ih recs seen out (fun i hi => hcons i (List.mem_cons_of_mem _ hi)) hmap h
                refine ⟨h1, h2, ?_⟩
                rw [h3]
                simp [appendedOf, hs, hk]
            | some k =>
                cases hkw : K.toKwargs item with
                | error e =>
                    simp only [hkw] at h
                    cases h
                | ok kw =>
                    simp only [hkw] at h
                    have hkey_kw : K.recKey kw = some k :=
                      consistentB_spec K item (hcons item (List.mem_cons_self _ _)) k kw hk hkw
                    cases hm : map k with
                    | some idx =>
                        simp only [hm] at h
                        obtain ⟨r0, hr0, hr0k⟩ := hmap k idx hm
                        have hidx : idx < recs.length := (List.get?_eq_some.mp hr0).1
                        have hmap' : ∀ k2 i2, map k2 = some i2 →
                            ∃ r, (recs.set idx kw).get? i2 = some r ∧ K.recKey r = some k2 := by
                          intro k2 i2 hm2
                          by_cases hii : idx = i2
                          · subst hii
                            obtain ⟨r2, hr2, hr2k⟩ := hmap k2 idx hm2
                            rw [hr0] at hr2
                            cases hr2
                            rw [hr0k] at hr2k
                            cases hr2k
                            exact ⟨kw, List.get?_set_eq_of_lt kw hidx, hkey_kw⟩
                          · obtain ⟨r2, hr2, hr2k⟩ := hmap k2 i2 hm2
                            exact ⟨r2, by rw [List.get?_set_ne kw recs hii]; exact hr2, hr2k⟩
                        obtain ⟨h1, h2, h3⟩ :=
                          ih _ _ out (fun i hi => hcons i (List.mem_cons_of_mem _ hi)) hmap' h
                        refine ⟨?_, ?_, ?_⟩
                        · rw [List.length_set] at h1
                          exact h1
                        · intro i hi
                          have hi' : i < (recs.set idx kw).length := by
                            rw [List.length_set]
                            exact hi
                          rcases h2 i hi' with heq | hupd
                          · by_cases hii : idx = i
                            · subst hii
                              right
                              refine ⟨k, kw, hm, ?_, hkey_kw, ?_⟩
                              · rw [heq]
                                exact List.get?_set_eq_of_lt kw hidx
                              · rw [loop_seen K map rest _ _ out h]
                                simp
                            · left
                              rw [heq, List.get?_set_ne kw recs hii]
                          · right
                            exact hupd
                        · rw [List.length_set] at h3
                          rw [h3]
                          simp [appendedOf, hs, hk, hm]
                    | none =>
                        simp only [hm] at h
                        have hmap' : ∀ k2 i2, map k2 = some i2 →
                            ∃ r, (recs ++ [kw]).get? i2 = some r ∧ K.recKey r = some k2 := by
                          intro k2 i2 hm2
                          obtain ⟨r2, hr2, hr2k⟩ := hmap k2 i2 hm2
                          have hb : i2 < recs.length := (List.get?_eq_some.mp hr2).1
                          exact ⟨r2, by rw [List.get?_append hb]; exact hr2, hr2k⟩
                        obtain ⟨h1, h2, h3⟩ :=
                          ih _ _ out (fun i hi => hcons i (List.mem_cons_of_mem _ hi)) hmap' h
                        have hlen1 : (recs ++ [kw]).length = recs.length + 1 := by simp
                        refine ⟨?_, ?_, ?_⟩
                        · rw [hlen1] at h1
                          omega
                        · intro i hi
                          have hi' : i < (recs ++ [kw]).length := by
                            rw [hlen1]
                            omega
                          rcases h2 i hi' with heq | hupd
                          · left
                            rw [heq, List.get?_append hi]
                          · right
                            exact hupd
                        · have hout_at : out.1.get? recs.length = some kw := by
                            have hi' : recs.length < (recs ++ [kw]).length := by
                              rw [hlen1]
                              omega
                            rcases h2 recs.length hi' with heq | hupd
                            · rw [heq, List.get?_append_right (Nat.le_refl _)]
                              simp
                            · obtain ⟨k2, kw2, hm2, _, _, _⟩ := hupd
                              obtain ⟨r2, hr2, _⟩ := hmap k2 recs.length hm2
                              have := (List.get?_eq_some.mp hr2).1
                              omega
                          rw [drop_cons_of_get? out.1 recs.length kw hout_at]
                          have hd : out.1.drop (recs.length + 1) = appendedOf K map rest := by
                            rw [← hlen1]
                            exact h3
                          rw [hd]
                          simp [appendedOf, hs, hk, hm, hkw, Except.toOption]
      · rw [if_neg hs] at h
        obtain ⟨h1, h2, h3⟩ :=
          ih recs seen out (fun i hi => hcons i (List.mem_cons_of_mem _ hi)) hmap h
        refine ⟨h1, h2, ?_⟩
        rw [h3]
        simp [appendedOf, hs]

theorem lastItemWith_cons_pos {Item Rec : Type} (K : SyncKind Item Rec) (k : Int)
    (item : Item) (rest : List Item) (h : itemHasKey K k item = true) :
    lastItemWith K (item :: rest) k =
      match lastItemWith K rest k with
      | some b => some b
      | none => some item := by
  simp only [lastItemWith]
  rw [List.filter_cons_of_pos h, getLast?_cons_eq]

theorem lastItemWith_cons_neg {Item Rec : Type} (K : SyncKind Item Rec) (k : Int)
    (item : Item) (rest : List Item) (h : itemHasKey K k item = false) :
    lastItemWith K (item :: rest) k = lastItemWith K rest k := by
  simp only [lastItemWith]
  rw [List.filter_cons_of_neg (by simp [h])]

/-- Content of the dict-mapped positions after the loop: the position of
key `k` holds the mapped row of the last payload occurrence of `k`, or
is untouched when `k` never occurred. -/
theorem loop_content {Item Rec : Type} (K : SyncKind Item Rec) (map : Int → Option Nat) :
    ∀ (P : List Item) (recs : List Rec) (seen : List Int) (out : List Rec × List Int),
      (∀ item ∈ P, consistentB K item = true) →
      (∀ k i, map k = some i → ∃ r, recs.get? i = some r ∧ K.recKey r = some k) →
      reconcileLoop K map P recs seen = .ok out →
      ∀ k i, map k = some i →
        (lastItemWith K P k = none → out.1.get? i = recs.get? i) ∧
        (∀ itemL, lastItemWith K P k = some itemL →
          ∃ kw, K.toKwargs itemL = .ok kw ∧ out.1.get? i = some kw) := by
  intro P
  induction P with
  | nil =>
      intro recs seen out _ _ h k i _
      cases h
      exact ⟨fun _ => rfl, fun itemL habs => by cases habs⟩
  | cons item rest ih =>
      intro recs seen out hcons hmap h k i hmi
      simp only [reconcileLoop] at h
      by_cases hs : K.storeable item = true
      · rw [if_pos hs] at h
        cases hk : K.itemKey item with
        | error e =>
            simp only [hk] at h
            cases h
        | ok ko =>
            simp only [hk] at h
            cases ko with
            | none =>
                have hlw := lastItemWith_cons_neg K k item rest (by simp [itemHasKey, hs, hk])
                rw [hlw]
                exact ih recs seen out (fun i2 hi2 => hcons i2 (List.mem_cons_of_mem _ hi2))
                  hmap h k i hmi
            | some k0 =>
                cases hkw : K.toKwargs item with
                | error e =>
                    simp only [hkw] at h
                    cases h
                | ok kw0 =>
                    simp only [hkw] at h
                    have hkey_kw : K.recKey kw0 = some k0 :=
                      consistentB_spec K item (hcons item (List.mem_cons_self _ _)) k0 kw0 hk hkw
                    cases hm : map k0 with
                    | some idx =>
                        simp only [hm] at h
                        obtain ⟨r0, hr0, hr0k⟩ := hmap k0 idx hm
                        have hidx : idx < recs.length := (List.get?_eq_some.mp hr0).1
                        have hmap' : ∀ k2 i2, map k2 = some i2 →
                            ∃ r, (recs.set idx kw0).get? i2 = some r ∧ K.recKey r = some k2 := by
                          intro k2 i2 hm2
                          by_cases hii : idx = i2
                          · subst hii
                            obtain ⟨r2, hr2, hr2k⟩ := hmap k2 idx hm2
                            rw [hr0] at hr2
                            cases hr2
                            rw [hr0k] at hr2k
                            cases hr2k
                            exact ⟨kw0, List.get?_set_eq_of_lt kw0 hidx, hkey_kw⟩
                          · obtain ⟨r2, hr2, hr2k⟩ := hmap k2 i2 hm2
                            exact ⟨r2, by rw [List.get?_set_ne kw0 recs hii]; exact hr2, hr2k⟩
                        have ihall := ih _ _ out
                          (fun i2 hi2 => hcons i2 (List.mem_cons_of_mem _ hi2)) hmap' h
                        by_cases hkk : k0 = k
                        · subst hkk
                          have hieq : i = idx := by
                            rw [hmi] at hm
                            cases hm
                            rfl
                          subst hieq
                          have hpos := lastItemWith_cons_pos K k0 item rest
                            (by simp [itemHasKey, hs, hk])
                          cases hrest : lastItemWith K rest k0 with
                          | none =>
                              rw [hpos, hrest]
                              constructor
                              · intro habs
                                cases habs
                              · intro itemL hL
                                cases hL
                                refine ⟨kw0, hkw, ?_⟩
                                have := (ihall k0 i hmi).1 hrest
                                rw [this, List.get?_set_eq_of_lt kw0 hidx]
                          | some itemL' =>
                              rw [hpos, hrest]
                              constructor
                              · intro habs
                                cases habs
                              · intro itemL hL
                                cases hL
                                exact (ihall k0 i hmi).2 itemL' hrest
                        · have hbeq : (k0 == k) = false := by
                            simp [hkk]
                          have hlw := lastItemWith_cons_neg K k item rest
                            (by simp [itemHasKey, hs, hk, hbeq])
                          rw [hlw]
                          have hii : idx ≠ i := by
                            intro hii
                            subst hii
                            obtain ⟨r2, hr2, hr2k⟩ := hmap k idx hmi
                            rw [hr0] at hr2
                            cases hr2
                            rw [hr0k] at hr2k
                            cases hr2k
                            exact hkk rfl
                          refine ⟨?_, ?_⟩
                          · intro hnone
                            rw [(ihall k i hmi).1 hnone, List.get?_set_ne kw0 recs hii]
                          · intro itemL hL
                            exact (ihall k i hmi).2 itemL hL
                    | none =>
                        simp only [hm] at h
                        have hmap' : ∀ k2 i2, map k2 = some i2 →
                            ∃ r, (recs ++ [kw0]).get? i2 = some r ∧ K.recKey r = some k2 := by
                          intro k2 i2 hm2
                          obtain ⟨r2, hr2, hr2k⟩ := hmap k2 i2 hm2
                          have hb : i2 < recs.length := (List.get?_eq_some.mp hr2).1
                          exact ⟨r2, by rw [List.get?_append hb]; exact hr2, hr2k⟩
                        have ihall := ih _ _ out
                          (fun i2 hi2 => hcons i2 (List.mem_cons_of_mem _ hi2)) hmap' h
                        have hkk : k0 ≠ k := by
                          intro hkk
                          subst hkk
                          rw [hmi] at hm
                          cases hm
                        have hbeq : (k0 == k) = false := by
                          simp [hkk]
                        have hlw := lastItemWith_cons_neg K k item rest
                          (by simp [itemHasKey, hs, hk, hbeq])
                        rw [hlw]
                        obtain ⟨r2, hr2, hr2k⟩ := hmap k i hmi
                        have hb : i < recs.length := (List.get?_eq_some.mp hr2).1
                        refine ⟨?_, ?_⟩
                        · intro hnone
                          rw [(ihall k i hmi).1 hnone, List.get?_append hb]
                        · intro itemL hL
                          exact (ihall k i hmi).2 itemL hL
      · rw [if_neg hs] at h
        have hlw := lastItemWith_cons_neg K k item rest (by simp [itemHasKey, hs])
        rw [hlw]
        exact ih recs seen out (fun i2 hi2 => hcons i2 (List.mem_cons_of_mem _ hi2)) hmap h k i hmi

theorem mem_of_getLast?_eq {α : Type} (l : List α) (a : α) (h : l.getLast? = some a) :
    a ∈ l := by
  have hx : a ∈ l.getLast? := Option.mem_def.mpr h
  obtain ⟨hne, heq⟩ := List.mem_getLast?_eq_getLast hx
  rw [heq]
  exact List.getLast_mem hne

theorem itemHasKey_true {Item Rec : Type} (K : SyncKind Item Rec) (k : Int) (it : Item)
    (h : itemHasKey K k it = true) :
    K.storeable it = true ∧ K.itemKey it = .ok (some k) := by
  simp only [itemHasKey, Bool.and_eq_true] at h
  obtain ⟨h1, h2⟩ := h
  refine ⟨h1, ?_⟩
  cases hk : K.itemKey it with
  | error e =>
      simp only [hk] at h2
      cases h2
  | ok ko =>
      cases ko with
      | none =>
          simp only [hk] at h2
          cases h2
      | some k2 =>
          simp only [hk] at h2
          rw [beq_iff_eq.mp h2]

theorem lastItemWith_mem {Item Rec : Type} (K : SyncKind Item Rec) (P : List Item)
    (k : Int) (itemL : Item) (h : lastItemWith K P k = some itemL) :
    itemL ∈ P ∧ K.storeable itemL = true ∧ K.itemKey itemL = .ok (some k) := by
  simp only [lastItemWith] at h
  have hmem := mem_of_getLast?_eq _ _ h
  obtain ⟨hp, hkey⟩ := List.mem_filter.mp hmem
  exact ⟨hp, itemHasKey_true K k itemL hkey⟩

theorem appendedOf_mem {Item Rec : Type} (K : SyncKind Item Rec) (map : Int → Option Nat)
    (P : List Item) (r : Rec) (h : r ∈ appendedOf K map P) :
    ∃ item ∈ P, K.storeable item = true ∧
      ∃ k, K.itemKey item = .ok (some k) ∧ map k = none ∧ K.toKwargs item = .ok r := by
  simp only [appendedOf] at h
  obtain ⟨item, hmem, hf⟩ := List.mem_filterMap.mp h
  refine ⟨item, hmem, ?_⟩
  by_cases hs : K.storeable item = true
  · rw [if_pos hs] at hf
    refine ⟨hs, ?_⟩
    cases hk : K.itemKey item with
    | error e =>
        simp only [hk] at hf
        cases hf
    | ok ko =>
        cases ko with
        | none =>
            simp only [hk] at hf
            cases hf
        | some k =>
            simp only [hk] at hf
            cases hm : map k with
            | some idx =>
                simp only [hm] at hf
                cases hf
            | none =>
                simp only [hm] at hf
                refine ⟨k, rfl, hm, ?_⟩
                cases hw : K.toKwargs item with
                | error e =>
                    rw [hw] at hf
                    simp [Except.toOption] at hf
                | ok kw =>
                    rw [hw] at hf
                    simp only [Except.toOption] at hf
                    cases hf
                    rfl
  · rw [if_neg hs] at hf
    cases hf

/-- The last appended row holding key `k`, for a key missing from the
dict: the mapped row of the last payload occurrence of `k`. -/
theorem appendedOf_filter_last {Item Rec : Type} (K : SyncKind Item Rec)
    (map : Int → Option Nat) (k : Int) :
    ∀ P : List Item,
      map k = none →
      (∀ it ∈ P, consistentB K it = true) →
      (∀ it ∈ P, K.storeable it = true → K.itemKey it = .ok (some k) →
        ∃ kw, K.toKwargs it = .ok kw) →
      ((appendedOf K map P).filter (fun r => K.recKey r == some k)).getLast? =
        (lastItemWith K P k).bind (fun it => (K.toKwargs it).toOption) := by
  intro P
  induction P with
  | nil =>
      intro _ _ _
      rfl
  | cons it rest ih =>
      intro hmapk hcons hkwok
      have ihr := ih hmapk (fun i hi => hcons i (List.mem_cons_of_mem _ hi))
        (fun i hi => hkwok i (List.mem_cons_of_mem _ hi))
      by_cases hs : K.storeable it = true
      · cases hk : K.itemKey it with
        | error e =>
            have hfit : appendedOf K map (it :: rest) = appendedOf K map rest := by
              simp [appendedOf, hs, hk]
            rw [hfit, lastItemWith_cons_neg K k it rest (by simp [itemHasKey, hs, hk])]
            exact ihr
        | ok ko =>
            cases ko with
            | none =>
                have hfit : appendedOf K map (it :: rest) = appendedOf K map rest := by
                  simp [appendedOf, hs, hk]
                rw [hfit, lastItemWith_cons_neg K k it rest (by simp [itemHasKey, hs, hk])]
                exact ihr
            | some k0 =>
                by_cases hkk : k0 = k
                · subst hkk
                  obtain ⟨kw, hkw⟩ := hkwok it (List.mem_cons_self _ _) hs hk
                  have hkey : K.recKey kw = some k0 :=
                    consistentB_spec K it (hcons it (List.mem_cons_self _ _)) k0 kw hk hkw
                  have hfit : appendedOf K map (it :: rest) = kw :: appendedOf K map rest := by
                    simp [appendedOf, hs, hk, hmapk, hkw, Except.toOption]
                  rw [hfit, List.filter_cons_of_pos (by simp [hkey]), getLast?_cons_eq,
                    lastItemWith_cons_pos K k0 it rest (by simp [itemHasKey, hs, hk]), ihr]
                  cases hrest : lastItemWith K rest k0 with
                  | none =>
                      simp [hkw, Except.toOption, Option.bind]
                  | some itemL =>
                      obtain ⟨hmemL, hsL, hkL⟩ := lastItemWith_mem K rest k0 itemL hrest
                      obtain ⟨kwL, hkwL⟩ := hkwok itemL (List.mem_cons_of_mem _ hmemL) hsL hkL
                      simp [hkwL, Except.toOption, Option.bind]
                · have hlw := lastItemWith_cons_neg K k it rest
                    (by simp [itemHasKey, hs, hk, (by simp [hkk] : (k0 == k) = false)])
                  cases hm : map k0 with
                  | some idx =>
                      have hfit : appendedOf K map (it :: rest) = appendedOf K map rest := by
                        simp [appendedOf, hs, hk, hm]
                      rw [hfit, hlw]
                      exact ihr
                  | none =>
                      cases hw : K.toKwargs it with
                      | error e =>
                          have hfit : appendedOf K map (it :: rest) = appendedOf K map rest := by
                            simp [appendedOf, hs, hk, hm, hw, Except.toOption]
                          rw [hfit, hlw]
                          exact ihr
                      | ok kw =>
                          have hkey : K.recKey kw = some k0 :=
                            consistentB_spec K it (hcons it (List.mem_cons_self _ _)) k0 kw hk hw
                          have hfit : appendedOf K map (it :: rest) =
                              kw :: appendedOf K map rest := by
                            simp [appendedOf, hs, hk, hm, hw, Except.toOption]
                          rw [hfit, List.filter_cons_of_neg (by simp [hkey, hkk]), hlw]
                          exact ihr
      · have hfit : appendedOf K map (it :: rest) = appendedOf K map rest := by
          simp [appendedOf, hs]
        rw [hfit, lastItemWith_cons_neg K k it rest (by simp [itemHasKey, hs])]
        exact ihr

/-! ## Facts about one full reconciliation pass -/

theorem reconcile_eq_ok {Item Rec : Type} (K : SyncKind Item Rec)
    (existing : List Rec) (payloads : List Item) (result : List Rec)
    (h : reconcile K existing payloads = .ok result) :
    ∃ out : List Rec × List Int,
      reconcileLoop K (fun k => lastIdx? (existing.map K.recKey) k) payloads existing [] =
        .ok out ∧
      out.2 = seenKeysOf K payloads ∧
      result = out.1.filter (fun r =>
        match K.recKey r with
        | some k => !(((existing.filterMap K.recKey).filter
            (fun k2 => !(out.2.contains k2))).contains k)
        | none => true) := by
  simp only [reconcile] at h
  cases hloop : reconcileLoop K (fun k => lastIdx? (existing.map K.recKey) k)
      payloads existing [] with
  | error e =>
      rw [hloop, except_bind_error] at h
      cases h
  | ok out =>
      rw [hloop, except_bind_ok] at h
      refine ⟨out, rfl, ?_, ?_⟩
      · have := loop_seen K _ payloads existing [] out hloop
        simpa using this
      · obtain ⟨recs2, seen2⟩ := out
        cases h
        rfl

theorem reconcile_hmap {Item Rec : Type} (K : SyncKind Item Rec) (existing : List Rec) :
    ∀ k i, lastIdx? (existing.map K.recKey) k = some i →
      ∃ r, existing.get? i = some r ∧ K.recKey r = some k := by
  intro k i h
  obtain ⟨h1, _⟩ := lastIdx?_spec_some k _ i h
  rw [List.get?_map] at h1
  cases hr : existing.get? i with
  | none =>
      rw [hr] at h1
      cases h1
  | some r =>
      rw [hr] at h1
      simp only [Option.map_some', Option.some.injEq] at h1
      exact ⟨r, rfl, h1⟩

theorem seenKeysOf_mem {Item Rec : Type} (K : SyncKind Item Rec)
    (payloads : List Item) (k : Int) :
    k ∈ seenKeysOf K payloads ↔
      ∃ item ∈ payloads, K.storeable item = true ∧ K.itemKey item = .ok (some k) := by
  simp only [seenKeysOf, List.mem_filterMap]
  constructor
  · rintro ⟨item, hmem, hf⟩
    refine ⟨item, hmem, ?_⟩
    by_cases hs : K.storeable item = true
    · rw [if_pos hs] at hf
      refine ⟨hs, ?_⟩
      cases hk : K.itemKey item with
      | error e =>
          simp only [hk] at hf
          cases hf
      | ok ko =>
          cases ko with
          | none =>
              simp only [hk] at hf
              cases hf
          | some k2 =>
              simp only [hk] at hf
              cases hf
              rfl
    · rw [if_neg hs] at hf
      cases hf
  · rintro ⟨item, hmem, hs, hk⟩
    exact ⟨item, hmem, by simp [hs, hk]⟩

theorem lastItemWith_isSome_of_mem {Item Rec : Type} (K : SyncKind Item Rec)
    (payloads : List Item) (k : Int) (item : Item) (hmem : item ∈ payloads)
    (hs : K.storeable item = true) (hk : K.itemKey item = .ok (some k)) :
    ∃ itemL, lastItemWith K payloads k = some itemL := by
  have hmemf : item ∈ payloads.filter (itemHasKey K k) :=
    List.mem_filter.mpr ⟨hmem, by simp [itemHasKey, hs, hk]⟩
  have hne : payloads.filter (itemHasKey K k) ≠ [] := by
    intro h0
    rw [h0] at hmemf
    cases hmemf
  simp only [lastItemWith]
  rw [List.getLast?_eq_getLast_of_ne_nil hne]
  exact ⟨_, rfl⟩

/-- C1 core, generic: after a successful pass the stored keys are
exactly the seen keys, every surviving row still has a key, and the sole
reason a stored row disappears is that its key was not seen. -/
theorem reconcile_keys {Item Rec : Type} (K : SyncKind Item Rec)
    (existing : List Rec) (payloads : List Item) (result : List Rec)
    (hcons : ∀ item ∈ payloads, consistentB K item = true)
    (hkeys : ∀ r ∈ existing, (K.recKey r).isSome = true)
    (hok : reconcile K existing payloads = .ok result) :
    (∀ r ∈ result, (K.recKey r).isSome = true) ∧
    (∀ k : Int, (∃ r ∈ result, K.recKey r = some k) ↔ k ∈ seenKeysOf K payloads) := by
  obtain ⟨out, hloop, hseen, hres⟩ := reconcile_eq_ok K existing payloads result hok
  obtain ⟨hlen, hpos, hdrop⟩ :=
    loop_shape K _ payloads existing [] out hcons (reconcile_hmap K existing) hloop
  have horigin : ∀ r ∈ out.1,
      (r ∈ existing) ∨
      (∃ k, K.recKey r = some k ∧ k ∈ out.2) := by
    intro r hr
    obtain ⟨i, hi⟩ := List.get?_of_mem hr
    by_cases hilt : i < existing.length
    · rcases hpos i hilt with heq | ⟨k, kw, _, hkw, hkwkey, hkseen⟩
      · left
        rw [heq] at hi
        exact List.get?_mem hi
      · right
        rw [hi] at hkw
        injection hkw with hrkw
        subst hrkw
        exact ⟨k, hkwkey, hkseen⟩
    · right
      have hdropped : r ∈ appendedOf K (fun k => lastIdx? (existing.map K.recKey) k) payloads := by
        rw [← hdrop]
        have : (out.1.drop existing.length).get? (i - existing.length) = some r := by
          rw [List.get?_drop]
          rw [show existing.length + (i - existing.length) = i from by omega]
          exact hi
        exact List.get?_mem this
      obtain ⟨item, hmem, hs, k, hk, _, hkw⟩ := appendedOf_mem K _ payloads r hdropped
      refine ⟨k, consistentB_spec K item (hcons item hmem) k r hk hkw, ?_⟩
      rw [hseen]
      exact (seenKeysOf_mem K payloads k).mpr ⟨item, hmem, hs, hk⟩
  constructor
  · intro r hr
    rw [hres] at hr
    obtain ⟨hr1, _⟩ := List.mem_filter.mp hr
    rcases horigin r hr1 with hre | ⟨k, hkk, _⟩
    · exact hkeys r hre
    · rw [hkk]
      rfl
  · intro k
    constructor
    · rintro ⟨r, hr, hkk⟩
      rw [hres] at hr
      obtain ⟨hr1, hpred⟩ := List.mem_filter.mp hr
      rw [hkk] at hpred
      simp only [Bool.not_eq_true'] at hpred
      have hknotdel : k ∉ (existing.filterMap K.recKey).filter
          (fun k2 => !(out.2.contains k2)) := by
        intro hmem
        have hc : ((existing.filterMap K.recKey).filter
            (fun k2 => !(out.2.contains k2))).contains k = true :=
          List.elem_eq_true_of_mem hmem
        rw [hc] at hpred
        cases hpred
      rcases horigin r hr1 with hre | ⟨k2, hk2, hk2seen⟩
      · rw [← hseen]
        by_contra hknot
        apply hknotdel
        refine List.mem_filter.mpr ⟨List.mem_filterMap.mpr ⟨r, hre, hkk⟩, ?_⟩
        simp only [Bool.not_eq_true']
        cases hcont : out.2.contains k with
        | false => rfl
        | true =>
            exfalso
            apply hknot
            have : k ∈ out.2 := by
              have := List.mem_of_elem_eq_true hcont
              exact this
            exact this
      · rw [hkk] at hk2
        cases hk2
        rw [← hseen]
        exact hk2seen
    · intro hkseen
      obtain ⟨item, hmem, hs, hk⟩ := (seenKeysOf_mem K payloads k).mp hkseen
      obtain ⟨itemL, hlast⟩ := lastItemWith_isSome_of_mem K payloads k item hmem hs hk
      obtain ⟨hmemL, hsL, hkL⟩ := lastItemWith_mem K payloads k itemL hlast
      have hpass : ∀ r, K.recKey r = some k →
          (match K.recKey r with
           | some k2 => !(((existing.filterMap K.recKey).filter
               (fun k3 => !(out.2.contains k3))).contains k2)
           | none => true) = true := by
        intro r hkr
        rw [hkr]
        simp only [Bool.not_eq_true']
        cases hcont : ((existing.filterMap K.recKey).filter
            (fun k3 => !(out.2.contains k3))).contains k with
        | false => rfl
        | true =>
            exfalso
            have hmemdel := List.mem_of_elem_eq_true hcont
            obtain ⟨_, hflt⟩ := List.mem_filter.mp hmemdel
            rw [hseen] at hflt
            have : out.2.contains k = true := by
              rw [hseen]
              exact List.elem_eq_true_of_mem hkseen
            rw [hseen] at this
            rw [this] at hflt
            cases hflt
      cases hm : lastIdx? (existing.map K.recKey) k with
      | some i =>
          have hcontent := loop_content K _ payloads existing [] out hcons
            (reconcile_hmap K existing) hloop k i hm
          obtain ⟨kw, hkw, hget⟩ := hcontent.2 itemL hlast
          have hkwkey : K.recKey kw = some k :=
            consistentB_spec K itemL (hcons itemL hmemL) k kw hkL hkw
          refine ⟨kw, ?_, hkwkey⟩
          rw [hres]
          exact List.mem_filter.mpr ⟨List.get?_mem hget, hpass kw hkwkey⟩
      | none =>
          have hitems := loop_ok_items K _ payloads existing [] out hloop itemL hmemL hsL
          obtain ⟨kwL, hkwL⟩ : ∃ kwL, K.toKwargs itemL = .ok kwL := by
            cases hw : K.toKwargs itemL with
            | error e => exact absurd hw (hitems.2 k hkL e)
            | ok kw => exact ⟨kw, rfl⟩
          have hkwkey : K.recKey kwL = some k :=
            consistentB_spec K itemL (hcons itemL hmemL) k kwL hkL hkwL
          have hmemapp : kwL ∈ appendedOf K (fun k2 => lastIdx? (existing.map K.recKey) k2)
              payloads := by
            refine List.mem_filterMap.mpr ⟨itemL, hmemL, ?_⟩
            simp [hsL, hkL, hm, hkwL, Except.toOption]
          have hkwmem : kwL ∈ out.1 := by
            have : kwL ∈ out.1.drop existing.length := by
              rw [hdrop]
              exact hmemapp
            exact List.drop_subset _ _ this
          refine ⟨kwL, ?_, hkwkey⟩
          rw [hres]
          exact List.mem_filter.mpr ⟨hkwmem, hpass kwL hkwkey⟩

theorem recsWith_filter_comm {Item Rec : Type} (K : SyncKind Item Rec) (k : Int)
    (dp : Rec → Bool) (l : List Rec)
    (hdp : ∀ r ∈ l, K.recKey r = some k → dp r = true) :
    recsWith K (l.filter dp) k = recsWith K l k := by
  simp only [recsWith]
  rw [List.filter_filter]
  apply List.filter_congr
  intro r hr
  cases hk : (K.recKey r == some k) with
  | false => simp
  | true =>
      rw [hdp r hr (beq_iff_eq.mp hk)]
      simp

/-- No row with key `k` sits past the dict position of `k` after the
loop. -/
theorem out_no_k_after {Item Rec : Type} (K : SyncKind Item Rec)
    (existing : List Rec) (payloads : List Item) (out : List Rec × List Int)
    (hcons : ∀ item ∈ payloads, consistentB K item = true)
    (hloop : reconcileLoop K (fun k2 => lastIdx? (existing.map K.recKey) k2)
      payloads existing [] = .ok out)
    (k : Int) (i : Nat) (hm : lastIdx? (existing.map K.recKey) k = some i) :
    ∀ j r, i < j → out.1.get? j = some r → K.recKey r ≠ some k := by
  obtain ⟨hlen, hpos, hdrop⟩ :=
    loop_shape K _ payloads existing [] out hcons (reconcile_hmap K existing) hloop
  obtain ⟨_, hafter⟩ := lastIdx?_spec_some k _ i hm
  intro j r hij hj hkk
  by_cases hjl : j < existing.length
  · rcases hpos j hjl with heq | ⟨k2, kw2, hm2, hkw2, hkey2, _⟩
    · rw [heq] at hj
      apply hafter j hij
      rw [List.get?_map, hj, Option.map_some', hkk]
    · rw [hj] at hkw2
      injection hkw2 with hrkw
      subst hrkw
      rw [hkk] at hkey2
      injection hkey2 with hk2
      subst hk2
      rw [hm] at hm2
      injection hm2 with hii
      omega
  · have hrmem : r ∈ appendedOf K (fun k2 => lastIdx? (existing.map K.recKey) k2) payloads := by
      rw [← hdrop]
      have : (out.1.drop existing.length).get? (j - existing.length) = some r := by
        rw [List.get?_drop, show existing.length + (j - existing.length) = j from by omega]
        exact hj
      exact List.get?_mem this
    obtain ⟨item, hmem, _, k2, hk2, hm2, hkw2⟩ := appendedOf_mem K _ payloads r hrmem
    have := consistentB_spec K item (hcons item hmem) k2 r hk2 hkw2
    rw [hkk] at this
    injection this with hk2k
    rw [← hk2k] at hm2
    rw [hm] at hm2
    cases hm2

/-- With `k` missing from the dict, the rows holding `k` after the loop
are exactly the appended ones. -/
theorem recsWith_out_map_none {Item Rec : Type} (K : SyncKind Item Rec)
    (existing : List Rec) (payloads : List Item) (out : List Rec × List Int)
    (hcons : ∀ item ∈ payloads, consistentB K item = true)
    (hloop : reconcileLoop K (fun k2 => lastIdx? (existing.map K.recKey) k2)
      payloads existing [] = .ok out)
    (k : Int) (hm : lastIdx? (existing.map K.recKey) k = none) :
    recsWith K out.1 k =
      recsWith K (appendedOf K (fun k2 => lastIdx? (existing.map K.recKey) k2) payloads) k := by
  obtain ⟨hlen, hpos, hdrop⟩ :=
    loop_shape K _ payloads existing [] out hcons (reconcile_hmap K existing) hloop
  have hsplit : out.1 = out.1.take existing.length ++ out.1.drop existing.length :=
    (List.take_append_drop _ _).symm
  have htake : recsWith K (out.1.take existing.length) k = [] := by
    simp only [recsWith]
    rw [List.filter_eq_nil]
    intro r hr hkr
    obtain ⟨j, hj⟩ := List.get?_of_mem hr
    have hjl : j < existing.length := by
      have := (List.get?_eq_some.mp hj).1
      have hle : (out.1.take existing.length).length ≤ existing.length := by
        simp [List.length_take]
      omega
    have hj2 : out.1.get? j = some r := by
      rw [← List.get?_take hjl]
      exact hj
    have hkr2 : K.recKey r = some k := beq_iff_eq.mp hkr
    rcases hpos j hjl with heq | ⟨k2, kw2, hm2, hkw2, hkey2, _⟩
    · rw [heq] at hj2
      apply lastIdx?_spec_none k _ hm j
      rw [List.get?_map, hj2, Option.map_some', hkr2]
    · rw [hj2] at hkw2
      injection hkw2 with hrkw
      subst hrkw
      rw [hkr2] at hkey2
      injection hkey2 with hk2
      rw [← hk2] at hm2
      rw [hm] at hm2
      cases hm2
  conv_lhs => rw [hsplit]
  simp only [recsWith] at htake ⊢
  rw [List.filter_append, htake, List.nil_append, hdrop]

theorem delete_pred_true_of_seen {Item Rec : Type} (K : SyncKind Item Rec)
    (existing : List Rec) (seen : List Int) (k : Int) (hk : k ∈ seen)
    (r : Rec) (hkr : K.recKey r = some k) :
    (match K.recKey r with
     | some k2 => !(((existing.filterMap K.recKey).filter
         (fun k3 => !(seen.contains k3))).contains k2)
     | none => true) = true := by
  rw [hkr]
  simp only [Bool.not_eq_true']
  cases hcont : ((existing.filterMap K.recKey).filter
      (fun k3 => !(seen.contains k3))).contains k with
  | false => rfl
  | true =>
      exfalso
      have hmemdel := List.mem_of_elem_eq_true hcont
      obtain ⟨_, hflt⟩ := List.mem_filter.mp hmemdel
      have hc : seen.contains k = true := List.elem_eq_true_of_mem hk
      rw [hc] at hflt
      cases hflt

/-- The last stored row holding a seen key `k` after a full pass is the
mapped row of the last payload occurrence of `k`. -/
theorem reconcile_last_key_content {Item Rec : Type} (K : SyncKind Item Rec)
    (existing : List Rec) (payloads : List Item) (S1 : List Rec)
    (hcons : ∀ item ∈ payloads, consistentB K item = true)
    (hok : reconcile K existing payloads = .ok S1) :
    ∀ k, k ∈ seenKeysOf K payloads →
      ∃ itemL kw, lastItemWith K payloads k = some itemL ∧ K.toKwargs itemL = .ok kw ∧
        (recsWith K S1 k).getLast? = some kw := by
  intro k hkseen
  obtain ⟨item, hmem, hs, hk⟩ := (seenKeysOf_mem K payloads k).mp hkseen
  obtain ⟨itemL, hlast⟩ := lastItemWith_isSome_of_mem K payloads k item hmem hs hk
  obtain ⟨hmemL, hsL, hkL⟩ := lastItemWith_mem K payloads k itemL hlast
  obtain ⟨out, hloop, hseen, hres⟩ := reconcile_eq_ok K existing payloads S1 hok
  have hkseen2 : k ∈ out.2 := by
    rw [hseen]
    exact hkseen
  have hrw : recsWith K S1 k = recsWith K out.1 k := by
    rw [hres]
    exact recsWith_filter_comm K k _ out.1
      (fun r _ hkr => delete_pred_true_of_seen K existing out.2 k hkseen2 r hkr)
  cases hm : lastIdx? (existing.map K.recKey) k with
  | some i =>
      have hcontent := loop_content K _ payloads existing [] out hcons
        (reconcile_hmap K existing) hloop k i hm
      obtain ⟨kw, hkw, hget⟩ := hcontent.2 itemL hlast
      have hkwkey : K.recKey kw = some k :=
        consistentB_spec K itemL (hcons itemL hmemL) k kw hkL hkw
      refine ⟨itemL, kw, hlast, hkw, ?_⟩
      rw [hrw]
      apply filter_getLast?_of_last_pos _ out.1 i kw hget (by simp [hkwkey])
      intro j s hij hj
      cases hks : (K.recKey s == some k) with
      | false => rfl
      | true =>
          exact absurd (beq_iff_eq.mp hks)
            (out_no_k_after K existing payloads out hcons hloop k i hm j s hij hj)
  | none =>
      have hitems := loop_ok_items K _ payloads existing [] out hloop
      have hkwok : ∀ it ∈ payloads, K.storeable it = true → K.itemKey it = .ok (some k) →
          ∃ kw, K.toKwargs it = .ok kw := by
        intro it hmem2 hs2 hk2
        cases hw : K.toKwargs it with
        | error e => exact absurd hw ((hitems it hmem2 hs2).2 k hk2 e)
        | ok kw => exact ⟨kw, rfl⟩
      obtain ⟨kwL, hkwL⟩ := hkwok itemL hmemL hsL hkL
      refine ⟨itemL, kwL, hlast, hkwL, ?_⟩
      rw [hrw, recsWith_out_map_none K existing payloads out hcons hloop k hm]
      have happ := appendedOf_filter_last K _ k payloads hm hcons hkwok
      simp only [recsWith]
      rw [happ, hlast]
      simp [hkwL, Except.toOption, Option.bind]

/-- Rerunning the same pass on its own committed output is a literal
fixpoint: every key hits the dict, every update rewrites the row with
the same mapped values, nothing is appended and nothing is deleted. -/
theorem reconcile_fixpoint {Item Rec : Type} (K : SyncKind Item Rec)
    (existing : List Rec) (payloads : List Item) (S1 : List Rec)
    (hcons : ∀ item ∈ payloads, consistentB K item = true)
    (hkeys : ∀ r ∈ existing, (K.recKey r).isSome = true)
    (hok : reconcile K existing payloads = .ok S1) :
    reconcile K S1 payloads = .ok S1 := by
  obtain ⟨hkeys1, hmemiff⟩ := reconcile_keys K existing payloads S1 hcons hkeys hok
  obtain ⟨out1, hloop1, hseen1, _⟩ := reconcile_eq_ok K existing payloads S1 hok
  have hitems := loop_ok_items K _ payloads existing [] out1 hloop1
  obtain ⟨out2, hloop2⟩ := loop_ok_of_items K (fun k => lastIdx? (S1.map K.recKey) k)
    payloads S1 [] hitems
  obtain ⟨hlen2, hpos2, hdrop2⟩ :=
    loop_shape K _ payloads S1 [] out2 hcons (reconcile_hmap K S1) hloop2
  have happ : appendedOf K (fun k => lastIdx? (S1.map K.recKey) k) payloads = [] := by
    simp only [appendedOf]
    rw [List.filterMap_eq_nil]
    intro item hmem
    by_cases hs : K.storeable item = true
    · rw [if_pos hs]
      cases hk : K.itemKey item with
      | error e => rfl
      | ok ko =>
          cases ko with
          | none => rfl
          | some k =>
              have hkseen : k ∈ seenKeysOf K payloads :=
                (seenKeysOf_mem K payloads k).mpr ⟨item, hmem, hs, hk⟩
              obtain ⟨r, hrmem, hrk⟩ := (hmemiff k).mpr hkseen
              obtain ⟨j, hj⟩ := List.get?_of_mem hrmem
              obtain ⟨i, hi⟩ := lastIdx?_isSome_of_pos k (S1.map K.recKey) j
                (by rw [List.get?_map, hj, Option.map_some', hrk])
              simp only [hi]
    · rw [if_neg hs]
  have hlen_eq : out2.1.length = S1.length := by
    have hnil : out2.1.drop S1.length = [] := by
      rw [hdrop2, happ]
    have hle := List.drop_eq_nil_iff_le.mp hnil
    omega
  have hgets : ∀ i, out2.1.get? i = S1.get? i := by
    intro i
    by_cases hi : i < S1.length
    · rcases hpos2 i hi with heq | ⟨k, kw, hm2, hkw2, hkey2, _⟩
      · exact heq
      · have hcontent := loop_content K _ payloads S1 [] out2 hcons
          (reconcile_hmap K S1) hloop2 k i hm2
        obtain ⟨r, hr, hrk⟩ := reconcile_hmap K S1 k i hm2
        have hkseen : k ∈ seenKeysOf K payloads :=
          (hmemiff k).mp ⟨r, List.get?_mem hr, hrk⟩
        obtain ⟨itemL, kwL, hlast, hkwL, hgl⟩ :=
          reconcile_last_key_content K existing payloads S1 hcons hok k hkseen
        obtain ⟨kw2, hkw2b, hget2⟩ := hcontent.2 itemL hlast
        obtain ⟨hkeyi, hafteri⟩ := lastIdx?_spec_some k _ i hm2
        have hglS1 : (recsWith K S1 k).getLast? = some r := by
          apply filter_getLast?_of_last_pos _ S1 i r hr (by simp [hrk])
          intro j s hij hj
          cases hks : (K.recKey s == some k) with
          | false => rfl
          | true =>
              exfalso
              apply hafteri j hij
              rw [List.get?_map, hj, Option.map_some', beq_iff_eq.mp hks]
        rw [hglS1] at hgl
        injection hgl with hrkw
        rw [hkwL] at hkw2b
        injection hkw2b with hkww
        rw [hget2, hr, hrkw, hkww]
    · have h1 : out2.1.get? i = none := List.get?_eq_none.mpr (by omega)
      have h2 : S1.get? i = none := List.get?_eq_none.mpr (by omega)
      rw [h1, h2]
  have hout_eq : out2.1 = S1 := List.ext hgets
  have hseen2 : out2.2 = seenKeysOf K payloads := by
    have := loop_seen K _ payloads S1 [] out2 hloop2
    simpa using this
  have hdel : (S1.filterMap K.recKey).filter (fun k2 => !(out2.2.contains k2)) = [] := by
    rw [List.filter_eq_nil]
    intro k2 hk2 hpred
    obtain ⟨r, hrmem, hrk⟩ := List.mem_filterMap.mp hk2
    have hks : k2 ∈ seenKeysOf K payloads := (hmemiff k2).mp ⟨r, hrmem, hrk⟩
    have hc : out2.2.contains k2 = true := by
      rw [hseen2]
      exact List.elem_eq_true_of_mem hks
    rw [hc] at hpred
    cases hpred
  simp only [reconcile]
  rw [hloop2, except_bind_ok]
  rw [hout_eq, hdel]
  congr 1
  apply List.filter_eq_self.mpr
  intro r _
  cases K.recKey r <;> simp

/-- Pointwise congruence for `filterMap`. -/
theorem filterMap_congr_mem {α β : Type} (l : List α) (f g : α → Option β)
    (h : ∀ a ∈ l, f a = g a) : l.filterMap f = l.filterMap g := by
  induction l with
  | nil => rfl
  | cons x xs ih =>
      simp only [List.filterMap_cons]
      rw [h x (List.mem_cons_self x xs), ih (fun a ha => h a (List.mem_cons_of_mem x ha))]

/-- Two loops over the same payload with the same dict, whose kinds
agree except for the values written into the rows, produce outputs that
agree up to `erase` (and the keys agree exactly). -/
theorem loop_congr_erase {Item Rec : Type} (K1 K2 : SyncKind Item Rec) (erase : Rec → Rec)
    (map : Int → Option Nat)
    (hstore : ∀ it, K2.storeable it = K1.storeable it)
    (hkeyf : ∀ it, K2.itemKey it = K1.itemKey it)
    (hkw : ∀ it, match K1.toKwargs it, K2.toKwargs it with
      | .ok a, .ok b => erase b = erase a ∧ K2.recKey b = K1.recKey a
      | .error _, .error _ => True
      | _, _ => False) :
    ∀ (P : List Item) (recsA recsB : List Rec) (seen : List Int)
      (outA outB : List Rec × List Int),
      recsB.map erase = recsA.map erase →
      recsB.map K2.recKey = recsA.map K1.recKey →
      reconcileLoop K1 map P recsA seen = .ok outA →
      reconcileLoop K2 map P recsB seen = .ok outB →
      outB.1.map erase = outA.1.map erase ∧
      outB.1.map K2.recKey = outA.1.map K1.recKey ∧ outB.2 = outA.2 := by
  intro P
  induction P with
  | nil =>
      intro recsA recsB seen outA outB he hkk hA hB
      cases hA
      cases hB
      exact ⟨he, hkk, rfl⟩
  | cons it rest ih =>
      intro recsA recsB seen outA outB he hkk hA hB
      simp only [reconcileLoop] at hA hB
      rw [hstore it] at hB
      by_cases hs : K1.storeable it = true
      · rw [if_pos hs] at hA hB
        rw [hkeyf it] at hB
        cases hky : K1.itemKey it with
        | error e =>
            simp only [hky] at hA
            cases hA
        | ok ko =>
            simp only [hky] at hA hB
            cases ko with
            | none => exact ih _ _ _ _ _ he hkk hA hB
            | some k =>
                have hkwit := hkw it
                cases hw1 : K1.toKwargs it with
                | error e1 =>
                    simp only [hw1] at hA
                    cases hA
                | ok kwA =>
                    simp only [hw1] at hA
                    cases hw2 : K2.toKwargs it with
                    | error e2 =>
                        simp only [hw1, hw2] at hkwit
                    | ok kwB =>
                        simp only [hw1, hw2] at hkwit
                        obtain ⟨heq, hkeq⟩ := hkwit
                        simp only [hw2] at hB
                        cases hm : map k with
                        | some idx =>
                            simp only [hm] at hA hB
                            refine ih _ _ _ _ _ ?_ ?_ hA hB
                            · rw [List.map_set, List.map_set, he, heq]
                            · rw [List.map_set, List.map_set, hkk, hkeq]
                        | none =>
                            simp only [hm] at hA hB
                            refine ih _ _ _ _ _ ?_ ?_ hA hB
                            · rw [List.map_append, List.map_append, he]
                              simp [heq]
                            · rw [List.map_append, List.map_append, hkk]
                              simp [hkeq]
      · rw [if_neg hs] at hA hB
        exact ih _ _ _ _ _ he hkk hA hB

/-- Filtering by a key-determined predicate respects pointwise
`erase`-equality when the two lists have pointwise equal keys. -/
theorem filter_map_congr {Rec : Type} (erase : Rec → Rec) (g : Option Int → Bool)
    (kf1 kf2 : Rec → Option Int) :
    ∀ (l1 l2 : List Rec),
      l2.map erase = l1.map erase →
      l2.map kf2 = l1.map kf1 →
      (l2.filter (fun r => g (kf2 r))).map erase =
        (l1.filter (fun r => g (kf1 r))).map erase := by
  intro l1
  induction l1 with
  | nil =>
      intro l2 he _
      cases l2 with
      | nil => rfl
      | cons x xs => cases he
  | cons x1 t1 ih =>
      intro l2 he hkk
      cases l2 with
      | nil => cases he
      | cons x2 t2 =>
          simp only [List.map_cons, List.cons.injEq] at he hkk
          obtain ⟨hex, het⟩ := he
          obtain ⟨hkx, hkt⟩ := hkk
          rw [List.filter_cons, List.filter_cons, hkx]
          cases hgx : g (kf1 x1) with
          | true =>
              simp only [if_true]
              simp only [List.map_cons]
              rw [hex, ih t2 het hkt]
          | false =>
              simp only [Bool.false_eq_true, if_false]
              exact ih t2 het hkt

/-- Two passes over the same stored rows whose kinds differ only in the
values written (same keys, same decisions) commit `erase`-equal
results. -/
theorem reconcile_congr_erase {Item Rec : Type} (K1 K2 : SyncKind Item Rec) (erase : Rec → Rec)
    (hstore : ∀ it, K2.storeable it = K1.storeable it)
    (hkeyf : ∀ it, K2.itemKey it = K1.itemKey it)
    (hreck : ∀ r, K2.recKey r = K1.recKey r)
    (hkw : ∀ it, match K1.toKwargs it, K2.toKwargs it with
      | .ok a, .ok b => erase b = erase a ∧ K2.recKey b = K1.recKey a
      | .error _, .error _ => True
      | _, _ => False)
    (existing : List Rec) (payloads : List Item) (S1 S2 : List Rec)
    (h1 : reconcile K1 existing payloads = .ok S1)
    (h2 : reconcile K2 existing payloads = .ok S2) :
    S2.map erase = S1.map erase := by
  obtain ⟨out1, hloop1, hseen1, hres1⟩ := reconcile_eq_ok K1 existing payloads S1 h1
  obtain ⟨out2, hloop2, hseen2, hres2⟩ := reconcile_eq_ok K2 existing payloads S2 h2
  have hmapl : existing.map K2.recKey = existing.map K1.recKey :=
    List.map_congr_left (fun r _ => hreck r)
  have hmapeq : (fun k => lastIdx? (existing.map K2.recKey) k) =
      (fun k => lastIdx? (existing.map K1.recKey) k) := by
    rw [hmapl]
  rw [hmapeq] at hloop2
  obtain ⟨hmape, hmapk, hseeneq⟩ :=
    loop_congr_erase K1 K2 erase _ hstore hkeyf hkw payloads existing existing []
      out1 out2 rfl hmapl hloop1 hloop2
  have hfm : existing.filterMap K2.recKey = existing.filterMap K1.recKey :=
    filterMap_congr_mem existing _ _ (fun r _ => hreck r)
  rw [hres1, hres2, hseeneq, hfm]
  exact filter_map_congr erase
    (fun o => match o with
      | some k => !(((existing.filterMap K1.recKey).filter
          (fun k3 => !(out1.2.contains k3))).contains k)
      | none => true)
    K1.recKey K2.recKey out1.1 out2.1 hmape hmapk

/-! ## Instantiation facts for the two collection kinds -/

/-- A projects item is always key-consistent: the loop key and the row
field both coerce `data.get("id")`. -/
theorem projKind_consistent (sid now : Int) (item : ProjItem) :
    consistentB (projKind sid now) item = true := by
  simp only [consistentB, projKind]
  cases hk : optPyInt item.id with
  | error e => rfl
  | ok ko =>
      cases ko with
      | none => rfl
      | some k =>
          cases hkw : _project_payload_to_kwargs item sid now with
          | error e => rfl
          | ok kw =>
              simp only [_project_payload_to_kwargs, hk, except_bind_ok] at hkw
              cases hpi : optPyInt (item.project.getD ProjInfo.empty).id with
              | error e =>
                  rw [hpi, except_bind_error] at hkw
                  cases hkw
              | ok pid =>
                  rw [hpi, except_bind_ok] at hkw
                  cases hkw
                  simp

/-! ## Claim C1 : mirror membership -/

/-- C1, counterexample: a cursus item carrying `cursus_id = 5` at top
level and `cursus.id = 7` embedded.  The loop tracks 5 as seen, but the
stored row is written with `forty_two_cursus_id = 7` — a stored key
that was never seen this cycle. -/
theorem claim1_counterexample :
    _sync_cursus [] 1 [⟨.int 5, some ⟨.int 7, some "X"⟩, none, none, none⟩] 0 =
      .ok [⟨1, some 7, some "X", none, none, none, 0⟩] ∧
    cursSeenKeys [⟨.int 5, some ⟨.int 7, some "X"⟩, none, none, none⟩] = [5] ∧
    (7 : Int) ∉ cursSeenKeys [⟨.int 5, some ⟨.int 7, some "X"⟩, none, none, none⟩] := by
  exact ⟨rfl, rfl, by decide⟩

/-- C1, amended: after a completed cycle the stored keys are exactly the
keys seen in that cycle — projects unconditionally, cursus provided
each item derives the same key from its two id sources (top-level
`cursus_id` against embedded `cursus.id`); non-null stored keys reflect
the schema (`projects` has the column NOT NULL and loop-written cursus
rows carry one under the same proviso).  Remote absence is the sole
deletion trigger: a key survives exactly when it is in the seen set, no
remote deleted flag exists in the payload shape at all. -/
theorem claim1_mirror_membership
    (ep : List Project) (ec : List CursusEnrollment) (sid now : Int)
    (pp : List ProjItem) (cp : List CursItem)
    (rp : List Project) (rc : List CursusEnrollment)
    (hep : ∀ r ∈ ep, r.forty_two_project_user_id.isSome = true)
    (hec : ∀ r ∈ ec, r.forty_two_cursus_id.isSome = true)
    (hccons : ∀ item ∈ cp, consistentB (cursKind sid now) item = true)
    (hp : _sync_projects ep sid pp now = .ok rp)
    (hc : _sync_cursus ec sid cp now = .ok rc) :
    ((∀ r ∈ rp, r.forty_two_project_user_id.isSome = true) ∧
     (∀ k : Int, (∃ r ∈ rp, r.forty_two_project_user_id = some k) ↔ k ∈ projSeenKeys pp)) ∧
    ((∀ r ∈ rc, r.forty_two_cursus_id.isSome = true) ∧
     (∀ k : Int, (∃ r ∈ rc, r.forty_two_cursus_id = some k) ↔ k ∈ cursSeenKeys cp)) := by
  constructor
  · exact reconcile_keys (projKind sid now) ep pp rp
      (fun item _ => projKind_consistent sid now item) hep hp
  · exact reconcile_keys (cursKind sid now) ec cp rc hccons hec hc

/-- C1 witness: a single fresh projects item with id 10 lands in an
empty mirror; its key is stored if and only if it was seen. -/
theorem claim1_witness :
    (∃ r ∈ [({ student_id := 1, forty_two_project_user_id := some 10,
               forty_two_project_id := none, slug := none, name := none,
               progress_percent := none, status := none, validated := none,
               final_mark := none, marked_at := none, synced_at := 0 } : Project)],
       r.forty_two_project_user_id = some 10) ↔
      (10 : Int) ∈ projSeenKeys [⟨.int 10, none, none, none, none, none⟩] := by
  have h := claim1_mirror_membership [] [] 1 0 [⟨.int 10, none, none, none, none, none⟩] []
    [{ student_id := 1, forty_two_project_user_id := some 10,
       forty_two_project_id := none, slug := none, name := none,
       progress_percent := none, status := none, validated := none,
       final_mark := none, marked_at := none, synced_at := 0 }] []
    (by intro r hr; cases hr) (by intro r hr; cases hr) (by intro item hi; cases hi)
    rfl rfl
  exact h.1.2 10

/-! ## Claim C7 : placeholder exclusion -/

/-- Python `or` over the two optional string fields, seen through
`str(...)`, is the string-level fallback chain. -/
theorem pyOr_str_elim (a : Option String) (y : JVal) :
    pyOr (a.elim .null .str) y =
      (match a with
       | none => y
       | some s => if s == "" then y else .str s) := by
  cases a with
  | none => rfl
  | some s =>
      simp only [Option.elim, pyOr, truthy, bne]
      cases hs : (s == "") with
      | true => simp [hs]
      | false => simp [hs]

theorem pyStr_pyOr_strOr (a b : Option String) :
    pyStr (pyOr (a.elim .null .str) (pyOr (b.elim .null .str) (.str ""))) =
      strOr a (strOr b "") := by
  rw [pyOr_str_elim, pyOr_str_elim]
  cases a with
  | none =>
      cases b with
      | none => rfl
      | some t =>
          simp only [strOr]
          cases ht : (t == "") with
          | true => simp [ht, pyStr]
          | false => simp [ht, pyStr]
  | some s =>
      cases hs : (s == "") with
      | true =>
          have hse : s = "" := beq_iff_eq.mp hs
          subst hse
          cases b with
          | none => rfl
          | some t =>
              simp only [strOr]
              cases ht : (t == "") with
              | true => simp [ht, pyStr]
              | false => simp [ht, pyStr]
      | false =>
          simp only [strOr, hs, pyStr]
          simp [hs]

/-- The spec predicate is the exact negation of the source filter. -/
theorem should_store_not_placeholder (record : ProjItem) :
    isPlaceholderProject record = !(_should_store_project record) := by
  simp only [isPlaceholderProject, _should_store_project, Bool.not_not]
  rw [pyStr_pyOr_strOr]

/-- Items failing the storeable filter step through the loop with no
effect: dropping them in advance changes nothing. -/
theorem loop_filter_storeable {Item Rec : Type} (K : SyncKind Item Rec)
    (map : Int → Option Nat) :
    ∀ (payloads : List Item) (recs : List Rec) (seen : List Int),
      reconcileLoop K map (payloads.filter (fun it => K.storeable it)) recs seen =
        reconcileLoop K map payloads recs seen := by
  intro payloads
  induction payloads with
  | nil => intro recs seen; rfl
  | cons it rest ih =>
      intro recs seen
      rw [List.filter_cons]
      cases hs : K.storeable it with
      | true =>
          simp only [hs, if_true, reconcileLoop]
          cases hk : K.itemKey it with
          | error e => rfl
          | ok ko =>
              cases ko with
              | none => exact ih recs seen
              | some k =>
                  cases hw : K.toKwargs it with
                  | error e => rfl
                  | ok kw =>
                      cases hm : map k with
                      | some idx =>
                          simp only [hw, hm]
                          exact ih _ _
                      | none =>
                          simp only [hw, hm]
                          exact ih _ _
      | false =>
          simp only [hs, Bool.false_eq_true, if_false, reconcileLoop]
          exact ih recs seen

theorem reconcile_filter_storeable {Item Rec : Type} (K : SyncKind Item Rec)
    (existing : List Rec) (payloads : List Item) :
    reconcile K existing (payloads.filter (fun it => K.storeable it)) =
      reconcile K existing payloads := by
  simp only [reconcile]
  rw [loop_filter_storeable]

/-- C7: `isPlaceholderProject` coincides with the negation of the source
filter `_should_store_project`; dropping every placeholder record from a
fetched projects collection leaves the sync outcome unchanged (a
placeholder is never inserted, even as the only item); and placeholder
records never contribute a key to the seen set, so a previously stored
placeholder row falls to normal absence-deletion. -/
theorem claim7_placeholder_exclusion :
    (∀ record : ProjItem,
        isPlaceholderProject record = !(_should_store_project record)) ∧
    (∀ (existing : List Project) (sid now : Int) (payloads : List ProjItem),
        _sync_projects existing sid
            (payloads.filter (fun record => !(isPlaceholderProject record))) now =
          _sync_projects existing sid payloads now) ∧
    (∀ payloads : List ProjItem,
        projSeenKeys (payloads.filter (fun record => isPlaceholderProject record)) = []) := by
  refine ⟨should_store_not_placeholder, ?_, ?_⟩
  · intro existing sid now payloads
    have hfe : payloads.filter (fun record => !(isPlaceholderProject record)) =
        payloads.filter (fun it => (projKind sid now).storeable it) := by
      apply List.filter_congr
      intro it _
      rw [should_store_not_placeholder, Bool.not_not]
      rfl
    rw [hfe]
    exact reconcile_filter_storeable (projKind sid now) existing payloads
  · intro payloads
    simp only [projSeenKeys, seenKeysOf]
    rw [List.filterMap_eq_nil]
    intro it hit
    obtain ⟨_, hp⟩ := List.mem_filter.mp hit
    have hsf : _should_store_project it = false := by
      have hnp := should_store_not_placeholder it
      rw [hp] at hnp
      cases hss : _should_store_project it with
      | false => rfl
      | true =>
          rw [hss] at hnp
          cases hnp
    simp [projKind, hsf]

/-! ## Claim C5 : per-record skip behaviour -/

/-- Records whose derived loop key is `None` are skipped with no
effect: dropping them in advance changes nothing in the loop. -/
theorem loop_filter_nonekey {Item Rec : Type} (K : SyncKind Item Rec)
    (map : Int → Option Nat) :
    ∀ (payloads : List Item) (recs : List Rec) (seen : List Int),
      reconcileLoop K map
          (payloads.filter (fun it =>
            match K.itemKey it with | .ok none => false | _ => true)) recs seen =
        reconcileLoop K map payloads recs seen := by
  intro payloads
  induction payloads with
  | nil => intro recs seen; rfl
  | cons it rest ih =>
      intro recs seen
      rw [List.filter_cons]
      cases hk : K.itemKey it with
      | error e =>
          simp only [hk, if_true, reconcileLoop]
          by_cases hs : K.storeable it = true
          · simp only [hs, if_true, hk]
          · simp only [hs, if_false]
            exact ih recs seen
      | ok ko =>
          cases ko with
          | none =>
              simp only [hk, Bool.false_eq_true, if_false, reconcileLoop]
              by_cases hs : K.storeable it = true
              · simp only [hs, if_true, hk]
                exact ih recs seen
              · simp only [hs, if_false]
                exact ih recs seen
          | some k =>
              simp only [hk, if_true, reconcileLoop]
              by_cases hs : K.storeable it = true
              · simp only [hs, if_true, hk]
                cases hw : K.toKwargs it with
                | error e => rfl
                | ok kw =>
                    cases hm : map k with
                    | some idx => exact ih _ _
                    | none => exact ih _ _
              · simp only [hs, if_false]
                exact ih recs seen

theorem reconcile_filter_nonekey {Item Rec : Type} (K : SyncKind Item Rec)
    (existing : List Rec) (payloads : List Item) :
    reconcile K existing (payloads.filter (fun it =>
        match K.itemKey it with | .ok none => false | _ => true)) =
      reconcile K existing payloads := by
  simp only [reconcile]
  rw [loop_filter_nonekey]

/-- C5, counterexample: a projects record whose id is present but not an
integer (`"abc"`) is not skipped — `int("abc")` raises and the whole
sync step aborts with the error, surfacing the anomaly. -/
theorem claim5_counterexample :
    _sync_projects [] 1 [⟨.str "abc", none, none, none, none, none⟩] 0 =
      .error .valueError := rfl

/-- C5, amended: only records whose identity key derives to `None` are
skipped; for both collections, dropping those records in advance leaves
every sync outcome unchanged, and no key is fabricated for them (they
never touch the seen set or the stored rows).  A present but unparseable
id instead raises `ValueError` out of the sync, as the counterexample
shows. -/
theorem claim5_skip_none_id :
    (∀ (existing : List Project) (sid now : Int) (payloads : List ProjItem),
        _sync_projects existing sid
            (payloads.filter (fun item =>
              match optPyInt item.id with | .ok none => false | _ => true)) now =
          _sync_projects existing sid payloads now) ∧
    (∀ (existing : List CursusEnrollment) (sid now : Int) (payloads : List CursItem),
        _sync_cursus existing sid
            (payloads.filter (fun item =>
              match curs_loop_key item with | .ok none => false | _ => true)) now =
          _sync_cursus existing sid payloads now) := by
  constructor
  · intro existing sid now payloads
    exact reconcile_filter_nonekey (projKind sid now) existing payloads
  · intro existing sid now payloads
    exact reconcile_filter_nonekey (cursKind sid now) existing payloads

/-! ## Claim C3 : duplicate keys -/

/-- A list with all satisfying elements at one position filters to at
most one element. -/
theorem filter_length_le_one {α : Type} (p : α → Bool) :
    ∀ (l : List α) (i0 : Nat),
      (∀ j a, l.get? j = some a → p a = true → j = i0) →
      (l.filter p).length ≤ 1 := by
  intro l
  induction l with
  | nil => intro i0 _; simp
  | cons x xs ih =>
      intro i0 h
      rw [List.filter_cons]
      cases hp : p x with
      | false =>
          simp only [Bool.false_eq_true, if_false]
          apply ih (i0 - 1)
          intro j a hj hpa
          have hh := h (j + 1) a (by simp only [List.get?_cons_succ]; exact hj) hpa
          omega
      | true =>
          simp only [if_true]
          have h0 : (0 : Nat) = i0 := h 0 x rfl hp
          have hxs : xs.filter p = [] := by
            rw [List.filter_eq_nil]
            intro a ha hpa
            obtain ⟨j, hj⟩ := List.get?_of_mem ha
            have hh := h (j + 1) a (by simp only [List.get?_cons_succ]; exact hj) hpa
            omega
          rw [hxs]
          simp

theorem list_eq_singleton_of_getLast? {α : Type} (l : List α) (a : α)
    (h : l.getLast? = some a) (hlen : l.length ≤ 1) : l = [a] := by
  cases l with
  | nil => cases h
  | cons x xs =>
      cases xs with
      | nil =>
          have hx : (some x : Option α) = some a := h
          injection hx with hxa
          rw [hxa]
      | cons y ys => simp at hlen

/-- C3, counterexample: two records carrying the same identity key that
is NOT already stored each miss the prebuilt dict (it is never extended
inside the loop), so each inserts its own row — after the cycle TWO
stored records exist for key 5, not one. -/
theorem claim3_counterexample :
    _sync_cursus [] 1
        [⟨.int 5, some ⟨.null, some "A"⟩, none, none, none⟩,
         ⟨.int 5, some ⟨.null, some "B"⟩, none, none, none⟩] 0 =
      .ok [⟨1, some 5, some "A", none, none, none, 0⟩,
           ⟨1, some 5, some "B", none, none, none, 0⟩] := rfl

/-- C3, amended: last-write-wins holds under two provisos — every
fetched record is key-consistent (its mapper writes the same key the
loop tracks; automatic for projects, for cursus it means the two id
sources agree) and the duplicated key is already stored in exactly one
row.  Every duplicate occurrence then updates that same row in place,
and after the cycle exactly one stored record holds the key, with the
values mapped from the last payload occurrence.  (Without consistency an
inconsistent record can copy its mapper key onto a second row; for a key
not yet stored, each duplicate inserts its own row, as the
counterexample shows.) -/
theorem claim3_last_write_wins {Item Rec : Type} (K : SyncKind Item Rec)
    (existing : List Rec) (payloads : List Item) (S1 : List Rec)
    (hcons : ∀ item ∈ payloads, consistentB K item = true)
    (hok : reconcile K existing payloads = .ok S1)
    (k : Int) (i0 : Nat)
    (hm : lastIdx? (existing.map K.recKey) k = some i0)
    (huniq : ∀ j r, existing.get? j = some r → K.recKey r = some k → j = i0)
    (hkseen : k ∈ seenKeysOf K payloads) :
    ∃ itemL kw, lastItemWith K payloads k = some itemL ∧ K.toKwargs itemL = .ok kw ∧
      recsWith K S1 k = [kw] := by
  obtain ⟨itemL, kw, hlast, hkw, hgl⟩ :=
    reconcile_last_key_content K existing payloads S1 hcons hok k hkseen
  refine ⟨itemL, kw, hlast, hkw, ?_⟩
  obtain ⟨out, hloop, hseen, hres⟩ := reconcile_eq_ok K existing payloads S1 hok
  have hkseen2 : k ∈ out.2 := by
    rw [hseen]
    exact hkseen
  have hrw : recsWith K S1 k = recsWith K out.1 k := by
    rw [hres]
    exact recsWith_filter_comm K k _ out.1
      (fun r _ hkr => delete_pred_true_of_seen K existing out.2 k hkseen2 r hkr)
  obtain ⟨hlen, hpos, hdrop⟩ :=
    loop_shape K _ payloads existing [] out hcons (reconcile_hmap K existing) hloop
  have hito : ∀ j r, out.1.get? j = some r → K.recKey r = some k → j = i0 := by
    intro j r hj hkr
    by_cases hij : i0 < j
    · exact absurd hkr (out_no_k_after K existing payloads out hcons hloop k i0 hm j r hij hj)
    · by_cases hji : j < i0
      · obtain ⟨r0, hr0, hr0k⟩ := reconcile_hmap K existing k i0 hm
        obtain ⟨hi0lt, _⟩ := List.get?_eq_some.mp hr0
        have hjlt : j < existing.length := by omega
        rcases hpos j hjlt with heq | ⟨k2, kw2, hm2, hkw2, hkey2, _⟩
        · rw [heq] at hj
          exact absurd (huniq j r hj hkr) (by omega)
        · rw [hj] at hkw2
          injection hkw2 with hrkw
          subst hrkw
          rw [hkr] at hkey2
          injection hkey2 with hk2
          subst hk2
          rw [hm] at hm2
          injection hm2 with hii
          omega
      · omega
  have hlen1 : (recsWith K out.1 k).length ≤ 1 :=
    filter_length_le_one _ out.1 i0 (fun j a hj hp => hito j a hj (beq_iff_eq.mp hp))
  rw [hrw] at hgl
  rw [hrw]
  exact list_eq_singleton_of_getLast? _ kw hgl hlen1

/-- C3 witness: key 5 stored once, two payload occurrences — the single
surviving row holds the values of the second occurrence. -/
theorem claim3_witness :
    ∃ itemL kw,
      lastItemWith (cursKind 1 0)
          [⟨.int 5, some ⟨.null, some "A"⟩, none, none, none⟩,
           ⟨.int 5, some ⟨.null, some "B"⟩, none, none, none⟩] 5 = some itemL ∧
      (cursKind 1 0).toKwargs itemL = .ok kw ∧
      recsWith (cursKind 1 0) [⟨1, some 5, some "B", none, none, none, 0⟩] 5 = [kw] :=
  claim3_last_write_wins (cursKind 1 0)
    [⟨1, some 5, some "old", none, none, none, 0⟩]
    [⟨.int 5, some ⟨.null, some "A"⟩, none, none, none⟩,
     ⟨.int 5, some ⟨.null, some "B"⟩, none, none, none⟩]
    [⟨1, some 5, some "B", none, none, none, 0⟩]
    (by decide) rfl 5 0 rfl
    (by
      intro j r hj hk
      cases j with
      | zero => rfl
      | succ n => cases hj)
    (by decide)

/-! ## Claim C4 : idempotence of a repeated cycle -/

/-- The projects mapper reads the clock only for the synced-at stamp:
across two clock values the kwargs erase equal and carry the same key,
and failures coincide. -/
theorem proj_kwargs_now (sid now1 now2 : Int) (it : ProjItem) :
    match _project_payload_to_kwargs it sid now1, _project_payload_to_kwargs it sid now2 with
    | .ok a, .ok b => eraseStampP b = eraseStampP a ∧
        b.forty_two_project_user_id = a.forty_two_project_user_id
    | .error _, .error _ => True
    | _, _ => False := by
  simp only [_project_payload_to_kwargs]
  cases hpu : optPyInt it.id with
  | error e => simp only [hpu, except_bind_error]
  | ok puid =>
      simp only [hpu, except_bind_ok]
      cases hpi : optPyInt (it.project.getD ProjInfo.empty).id with
      | error e => simp only [hpi, except_bind_error]
      | ok pid =>
          simp only [hpi, except_bind_ok]
          exact ⟨rfl, trivial⟩

/-- The cursus mapper reads the clock only for the synced-at stamp. -/
theorem curs_kwargs_now (sid now1 now2 : Int) (it : CursItem) :
    match _cursus_payload_to_kwargs it sid now1, _cursus_payload_to_kwargs it sid now2 with
    | .ok a, .ok b => eraseStampC b = eraseStampC a ∧
        b.forty_two_cursus_id = a.forty_two_cursus_id
    | .error _, .error _ => True
    | _, _ => False := by
  simp only [_cursus_payload_to_kwargs]
  cases hc : optPyInt (pyOr (it.cursus.getD CursInfo.empty).id it.cursus_id) with
  | error e => simp only [hc, except_bind_error]
  | ok cid =>
      simp only [hc, except_bind_ok]
      exact ⟨rfl, trivial⟩

/-- C4, counterexample: with a cursus record whose two id sources
disagree, the first cycle stores the embedded id (7) but tracks the
top-level id (5) as seen; the second cycle then finds stored key 7
absent from the seen set and deletes the row — the stored set is not
content-stable across the repeated cycle. -/
theorem claim4_counterexample :
    _sync_cursus [] 1 [⟨.int 5, some ⟨.int 7, some "X"⟩, none, none, none⟩] 0 =
      .ok [⟨1, some 7, some "X", none, none, none, 0⟩] ∧
    _sync_cursus [⟨1, some 7, some "X", none, none, none, 0⟩] 1
        [⟨.int 5, some ⟨.int 7, some "X"⟩, none, none, none⟩] 1 =
      .ok [] := ⟨rfl, rfl⟩

/-- C4, amended: the repeated cycle is idempotent up to the synced-at
stamps — unconditionally for projects, and for cursus provided each
record derives the same key from its two id sources; stored rows must
carry non-null keys (the schema for projects, the loop invariant for
cursus).  The second run performs zero net inserts and deletes: the
stored sets are equal after erasing the stamps. -/
theorem claim4_idempotent (sid now1 now2 : Int) :
    (∀ (existing : List Project) (pp : List ProjItem) (S1 S2 : List Project),
        (∀ r ∈ existing, r.forty_two_project_user_id.isSome = true) →
        _sync_projects existing sid pp now1 = .ok S1 →
        _sync_projects S1 sid pp now2 = .ok S2 →
        S2.map eraseStampP = S1.map eraseStampP) ∧
    (∀ (existing : List CursusEnrollment) (cp : List CursItem) (S1 S2 : List CursusEnrollment),
        (∀ item ∈ cp, consistentB (cursKind sid now1) item = true) →
        (∀ r ∈ existing, r.forty_two_cursus_id.isSome = true) →
        _sync_cursus existing sid cp now1 = .ok S1 →
        _sync_cursus S1 sid cp now2 = .ok S2 →
        S2.map eraseStampC = S1.map eraseStampC) := by
  constructor
  · intro existing pp S1 S2 hkeys h1 h2
    have hfix : reconcile (projKind sid now1) S1 pp = .ok S1 :=
      reconcile_fixpoint (projKind sid now1) existing pp S1
        (fun item _ => projKind_consistent sid now1 item) hkeys h1
    refine reconcile_congr_erase (projKind sid now1) (projKind sid now2) eraseStampP
      (fun it => rfl) (fun it => rfl) (fun r => rfl) ?_ S1 pp S1 S2 hfix h2
    intro it
    have hpk := proj_kwargs_now sid now1 now2 it
    cases hw1 : _project_payload_to_kwargs it sid now1 with
    | error e1 =>
        cases hw2 : _project_payload_to_kwargs it sid now2 with
        | error e2 => simp only [projKind, hw1, hw2]
        | ok b => simp only [hw1, hw2] at hpk
    | ok a =>
        cases hw2 : _project_payload_to_kwargs it sid now2 with
        | error e2 => simp only [hw1, hw2] at hpk
        | ok b =>
            simp only [hw1, hw2] at hpk
            simp only [projKind, hw1, hw2]
            exact hpk
  · intro existing cp S1 S2 hcons hkeys h1 h2
    have hfix : reconcile (cursKind sid now1) S1 cp = .ok S1 :=
      reconcile_fixpoint (cursKind sid now1) existing cp S1 hcons hkeys h1
    refine reconcile_congr_erase (cursKind sid now1) (cursKind sid now2) eraseStampC
      (fun it => rfl) (fun it => rfl) (fun r => rfl) ?_ S1 cp S1 S2 hfix h2
    intro it
    have hck := curs_kwargs_now sid now1 now2 it
    cases hw1 : _cursus_payload_to_kwargs it sid now1 with
    | error e1 =>
        cases hw2 : _cursus_payload_to_kwargs it sid now2 with
        | error e2 => simp only [cursKind, hw1, hw2]
        | ok b => simp only [hw1, hw2] at hck
    | ok a =>
        cases hw2 : _cursus_payload_to_kwargs it sid now2 with
        | error e2 => simp only [hw1, hw2] at hck
        | ok b =>
            simp only [hw1, hw2] at hck
            simp only [cursKind, hw1, hw2]
            exact hck

/-- C4 witness: one fresh projects record and one fresh cursus record,
synced twice with clock values 0 then 1 — both repeated runs reproduce
the stored set up to the stamp. -/
theorem claim4_witness :
    ([⟨1, some 10, none, none, none, none, none, none, none, none, 1⟩] : List Project).map
        eraseStampP =
      [⟨1, some 10, none, none, none, none, none, none, none, none, 0⟩].map eraseStampP ∧
    ([⟨1, some 5, none, none, none, none, 1⟩] : List CursusEnrollment).map eraseStampC =
      [⟨1, some 5, none, none, none, none, 0⟩].map eraseStampC := by
  constructor
  · exact (claim4_idempotent 1 0 1).1 [] [⟨.int 10, none, none, none, none, none⟩]
      [⟨1, some 10, none, none, none, none, none, none, none, none, 0⟩]
      [⟨1, some 10, none, none, none, none, none, none, none, none, 1⟩]
      (by intro r hr; cases hr) rfl rfl
  · exact (claim4_idempotent 1 0 1).2 [] [⟨.int 5, none, none, none, none⟩]
      [⟨1, some 5, none, none, none, none, 0⟩] [⟨1, some 5, none, none, none, none, 1⟩]
      (by decide) (by intro r hr; cases hr) rfl rfl

end FortyTwoConnect
